import Mathlib

/-!
# Verification of the CSA sampling strategies of `csa_sampling_strategy.hpp`

Shallow embedding of the four suffix-array sampling strategies
(`_sa_order_sampling`, `_text_order_sampling`, `_bwt_sampling`,
`_fuzzy_sa_sampling`) and the three ISA sampling supports
(`_isa_sampling`, `_text_order_isa_sampling_support`,
`_fuzzy_isa_sampling_support`) over lists of naturals.  Bit-packed
integer vectors are `List Nat`, bitvectors are `List Bool`, and the
external rank/select/wavelet-tree/inverse-permutation primitives are
modelled by executable functions below.
-/

set_option autoImplicit false

namespace SDSL

/-! ## Succinct primitives (external collaborators of the sampling core) -/

/-- `rank1 bv i`: number of ones among the first `i` bits of `bv`. -/
def rank1 (bv : List Bool) (i : Nat) : Nat :=
  ((bv.take i).filter (fun b => b)).length

/-- Positions of the set bits of `bv`, in increasing order. -/
def onesList (bv : List Bool) : List Nat :=
  (List.range bv.length).filter (fun i => bv.getD i false)

/-- `select1 bv k`: position of the `k`-th one of `bv` (`k` is 1-based,
as in `select_1_type` of the library). -/
def select1 (bv : List Bool) (k : Nat) : Nat :=
  (onesList bv).getD (k - 1) 0

/-- Number of ones of a bitvector. -/
def popcount (bv : List Bool) : Nat :=
  (bv.filter (fun b => b)).length

/-- `wt_int.select(1, c)`: index of the first occurrence of symbol `c`
in the sequence underlying the wavelet tree. -/
def wtSelectFirst (seq : List Nat) (c : Nat) : Nat :=
  seq.findIdx (fun x => x == c)

/-- `inv_perm_support.operator[](v)`: position of value `v` in the
permutation, i.e. the inverse permutation applied to `v`. -/
def ipInv (perm : List Nat) (v : Nat) : Nat :=
  perm.findIdx (fun x => x == v)

/-- `⌈n / d⌉`, the way the source computes it: `(n + d - 1) / d`. -/
def ceilDiv (n d : Nat) : Nat := (n + d - 1) / d

/-! ## `_sa_order_sampling` (suffix-order SA sampling) -/

/-- State of a built `_sa_order_sampling`: the base `int_vector` of
samples. -/
structure SaOrderSampling where
  samples : List Nat
  deriving Repr, DecidableEq

/-- Constructor of `_sa_order_sampling`: `samples` has
`(n + d - 1) / d` entries and the loop stores `SA[i]` at positions
`i = 0, d, 2d, …`, so `samples[k] = SA[k·d]`. -/
def saOrderBuild (d : Nat) (SA : List Nat) : SaOrderSampling :=
  ⟨(List.range (ceilDiv SA.length d)).map (fun k => SA.getD (k * d) 0)⟩

/-- `_sa_order_sampling::is_sampled(i)`: `0 == (i % sample_dens)`. -/
def saOrderIsSampled (d i : Nat) : Bool :=
  i % d == 0

/-- `_sa_order_sampling::operator[](i)`: `base_type[i / sample_dens]`. -/
def SaOrderSampling.get (X : SaOrderSampling) (d i : Nat) : Nat :=
  X.samples.getD (i / d) 0

/-! ## `_text_order_sampling` (text-order SA sampling) -/

/-- State of a built `_text_order_sampling`: the base `int_vector` of
condensed samples plus the `marked` bitvector. -/
structure TextOrderSampling where
  samples : List Nat
  marked : List Bool
  deriving Repr, DecidableEq

/-- The raw sample list of the text-order build: the loop appends
`SA[i] / d` for each `i` (in increasing order) with `SA[i] % d == 0`. -/
def textOrderRaw (d : Nat) (SA : List Nat) : List Nat :=
  (SA.filter (fun sa => sa % d == 0)).map (fun sa => sa / d)

/-- Constructor of `_text_order_sampling`: `marked[i] = 1` iff
`SA[i] % d == 0`; `samples` is resized to `(n + d - 1) / d` and filled
with the condensed values in SA-index order (unwritten tail entries
stay zero). -/
def textOrderBuild (d : Nat) (SA : List Nat) : TextOrderSampling :=
  let raw := textOrderRaw d SA
  ⟨raw ++ List.replicate (ceilDiv SA.length d - raw.length) 0,
   SA.map (fun sa => sa % d == 0)⟩

/-- `_text_order_sampling::is_sampled(i)`: `marked[i]`. -/
def TextOrderSampling.isSampled (X : TextOrderSampling) (i : Nat) : Bool :=
  X.marked.getD i false

/-- `_text_order_sampling::operator[](i)`:
`samples[rank_marked(i)] * sample_dens`. -/
def TextOrderSampling.get (X : TextOrderSampling) (d i : Nat) : Nat :=
  X.samples.getD (rank1 X.marked i) 0 * d

/-- `_text_order_sampling::condensed_sa(i)`: `samples[i]`. -/
def TextOrderSampling.condensedSa (X : TextOrderSampling) (i : Nat) : Nat :=
  X.samples.getD i 0

/-! ## `_bwt_sampling` (BWT-driven SA sampling) -/

/-- State of a built `_bwt_sampling`: base `int_vector` of samples plus
the `marked` bitvector. -/
structure BwtSampling where
  samples : List Nat
  marked : List Bool
  deriving Repr, DecidableEq

/-- The mark condition of `_bwt_sampling`: `SA[i] % d == 0` or
`BWT[i] ∈ char_map`. -/
def bwtMark (d : Nat) (S : List Nat) (sa c : Nat) : Bool :=
  sa % d == 0 || S.contains c

/-- Constructor of `_bwt_sampling`: the first pass marks position `i`
when `SA[i] % d == 0` or `BWT[i]` is in the sample-char set `S` (empty
when the cache file is absent); the second pass stores `SA[i]` for every
marked `i` in increasing order of `i`. -/
def bwtBuild (d : Nat) (SA BWT : List Nat) (S : List Nat) : BwtSampling :=
  ⟨((SA.zip BWT).filter (fun p => bwtMark d S p.1 p.2)).map (fun p => p.1),
   (SA.zip BWT).map (fun p => bwtMark d S p.1 p.2)⟩

/-- `_bwt_sampling::is_sampled(i)`: `marked[i]`. -/
def BwtSampling.isSampled (X : BwtSampling) (i : Nat) : Bool :=
  X.marked.getD i false

/-- `_bwt_sampling::operator[](i)`:
`base_type[rank_marked(i)] * sample_dens` (the stored value is
multiplied by the stride). -/
def BwtSampling.get (X : BwtSampling) (d i : Nat) : Nat :=
  X.samples.getD (rank1 X.marked i) 0 * d

/-! ## `_fuzzy_sa_sampling` (run-aware SA sampling) -/

/-- `ISA[j]` as the build loop reads it from the `isa_buf` stream. -/
def isaAt (ISA : List Nat) (j : Nat) : Nat := ISA.getD j 0

/-- One step of the inner scan of the fuzzy build (lines 355-370): `j`
updates `pos_min` when its ISA value is smaller, and `pos_cnd` when its
ISA value is `≥ min_prev_val` and either no candidate exists yet or its
ISA value beats the candidate. -/
def fuzzyScanStep (ISA : List Nat) (minPrev : Nat) (st : Nat × Option Nat)
    (j : Nat) : Nat × Option Nat :=
  let posMin := if isaAt ISA j < isaAt ISA st.1 then j else st.1
  let posCnd :=
    if minPrev ≤ isaAt ISA j then
      match st.2 with
      | none => some j
      | some c => if isaAt ISA j < isaAt ISA c then some j else some c
    else st.2
  (posMin, posCnd)

/-- Scan of one block starting at text position `i` (lines 353-370):
`pos_min` starts at `i`; `pos_cnd` starts at `i` when
`ISA[i] ≥ min_prev_val` (else at the sentinel `n`, modelled as `none`);
then `j` runs over `i+1, …, min(i+d, n)-1`. -/
def fuzzyBlockScan (ISA : List Nat) (d minPrev i : Nat) : Nat × Option Nat :=
  (List.range' (i + 1) (min d (ISA.length - i) - 1)).foldl
    (fuzzyScanStep ISA minPrev)
    (i, if minPrev ≤ isaAt ISA i then some i else none)

/-- Chosen position of one block and whether the candidate was empty
(lines 371-375: an empty candidate falls back to `pos_min` and bumps
the run counter). -/
def fuzzyBlockChoice (ISA : List Nat) (d minPrev i : Nat) : Nat × Bool :=
  match fuzzyBlockScan ISA d minPrev i with
  | (_, some c) => (c, false)
  | (pm, none) => (pm, true)

/-- The outer loop of the fuzzy build over the given block starts
(line 351): returns the per-block list of
`(pos_cnd, candidate-was-empty)` pairs and the total number of
increments of the run counter; `min_prev_val` after a block is
`ISA[pos_cnd]` (line 376). -/
def fuzzyGo (ISA : List Nat) (d : Nat) : Nat → List Nat → List (Nat × Bool) × Nat
  | _, [] => ([], 0)
  | minPrev, i :: rest =>
    let cb := fuzzyBlockChoice ISA d minPrev i
    let tl := fuzzyGo ISA d (isaAt ISA cb.1) rest
    (cb :: tl.1, (if cb.2 then 1 else 0) + tl.2)

/-- Block starts of the fuzzy build: `0, d, 2d, … < n`. -/
def blockStarts (d n : Nat) : List Nat :=
  (List.range (ceilDiv n d)).map (fun b => b * d)

/-- Per-block trace of the fuzzy constructor, starting from
`min_prev_val = 0`. -/
def fuzzyTrace (d : Nat) (ISA : List Nat) : List (Nat × Bool) × Nat :=
  fuzzyGo ISA d 0 (blockStarts d ISA.length)

/-- Chosen `pos_cnd` (= marked ISA position) of each block, in block
order. -/
def fuzzyPositions (d : Nat) (ISA : List Nat) : List Nat :=
  (fuzzyTrace d ISA).1.map Prod.fst

/-- The `runs` local of the constructor: initialised to 1 (line 348)
and incremented at each empty-candidate block. -/
def fuzzyRuns (d : Nat) (ISA : List Nat) : Nat :=
  1 + (fuzzyTrace d ISA).2

/-- Number of blocks whose "≥ min_prev" candidate was empty. -/
def fuzzyEmptyCount (d : Nat) (ISA : List Nat) : Nat :=
  ((fuzzyTrace d ISA).1.filter (fun cb => cb.2)).length

/-- `min_prev_val` after each block, i.e. `ISA[pos_cnd]` per block:
these are the raw `inv_perm` entries (line 378) and the marked SA
positions (line 379). -/
def fuzzyInvRaw (d : Nat) (ISA : List Nat) : List Nat :=
  (fuzzyPositions d ISA).map (isaAt ISA)

/-- The `marked_isa` bitvector (line 377): ones exactly at the chosen
block positions. -/
def fuzzyMarkedIsa (d : Nat) (ISA : List Nat) : List Bool :=
  (List.range ISA.length).map (fun i => (fuzzyPositions d ISA).contains i)

/-- The `marked_sa` bitvector (line 379): ones exactly at the
`min_prev_val` values. -/
def fuzzyMarkedSa (d : Nat) (ISA : List Nat) : List Bool :=
  (List.range ISA.length).map (fun v => (fuzzyInvRaw d ISA).contains v)

/-- The rank-compressed `inv_perm` (lines 383-390): each raw entry `v`
is replaced by `rank_marked_sa(v)`. -/
def fuzzyInvPerm (d : Nat) (ISA : List Nat) : List Nat :=
  (fuzzyInvRaw d ISA).map (fun v => rank1 (fuzzyMarkedSa d ISA) v)

/-- State of a built `_fuzzy_sa_sampling`: the two mark bitvectors and
the wavelet-tree sequence. -/
structure FuzzySampling where
  marked_sa : List Bool
  marked_isa : List Bool
  inv_perm : List Nat
  deriving Repr, DecidableEq

/-- Constructor of `_fuzzy_sa_sampling` from the cached ISA. -/
def fuzzyBuild (d : Nat) (ISA : List Nat) : FuzzySampling :=
  ⟨fuzzyMarkedSa d ISA, fuzzyMarkedIsa d ISA, fuzzyInvPerm d ISA⟩

/-- `_fuzzy_sa_sampling::is_sampled(i)`: `marked_sa[i]`. -/
def FuzzySampling.isSampled (X : FuzzySampling) (i : Nat) : Bool :=
  X.marked_sa.getD i false

/-- `_fuzzy_sa_sampling::operator[](i)`:
`select_marked_isa(inv_perm.select(1, rank_marked_sa(i)) + 1)`. -/
def FuzzySampling.get (X : FuzzySampling) (i : Nat) : Nat :=
  select1 X.marked_isa (wtSelectFirst X.inv_perm (rank1 X.marked_sa i) + 1)

/-- `_fuzzy_sa_sampling::inv(i)`: the condensed `inv_perm[i]`. -/
def FuzzySampling.inv (X : FuzzySampling) (i : Nat) : Nat :=
  X.inv_perm.getD i 0

/-- `_fuzzy_sa_sampling::size()`: `inv_perm.size()`. -/
def FuzzySampling.size (X : FuzzySampling) : Nat :=
  X.inv_perm.length

/-! ## `_isa_sampling` (plain ISA sampling) -/

/-- State of a built `_isa_sampling`: the base `int_vector`. -/
structure IsaSampling where
  iv : List Nat
  deriving Repr, DecidableEq

/-- Constructor of `_isa_sampling`: `iv` has `(n-1)/d + 1` entries for
`n ≥ 1` (zero-initialised) and the scan over SA sets `iv[SA[i]/d] = i`
whenever `SA[i] % d == 0`. -/
def isaBuild (d : Nat) (SA : List Nat) : IsaSampling :=
  ⟨(List.range SA.length).foldl
      (fun iv i =>
        if SA.getD i 0 % d == 0 then iv.set (SA.getD i 0 / d) i else iv)
      (List.replicate (if 1 ≤ SA.length then (SA.length - 1) / d + 1 else 0) 0)⟩

/-- `_isa_sampling::operator[](i)`: `base_type[i / sample_dens]`. -/
def IsaSampling.get (X : IsaSampling) (d i : Nat) : Nat :=
  X.iv.getD (i / d) 0

/-- `_isa_sampling::sample_leq(i)`. -/
def IsaSampling.sampleLeq (X : IsaSampling) (d i : Nat) : Nat × Nat :=
  (X.iv.getD (i / d) 0, (i / d) * d)

/-- `_isa_sampling::sample_qeq(i)` (the source's name for the `≥`
query): `ci = (i/d + 1) % size`. -/
def IsaSampling.sampleQeq (X : IsaSampling) (d i : Nat) : Nat × Nat :=
  (X.iv.getD ((i / d + 1) % X.iv.length) 0, ((i / d + 1) % X.iv.length) * d)

/-! ## `_text_order_isa_sampling_support` -/

/-- State of a built `_text_order_isa_sampling_support`: the
inverse-permutation support is constructed over the companion's
condensed sample vector and the select support over the companion's
`marked` bitvector; both are non-owning back-references to the
companion's data, modelled by copies of that data. -/
structure TextOrderIsaSupport where
  perm : List Nat
  marked : List Bool
  deriving Repr, DecidableEq

/-- Constructor from the companion `_text_order_sampling`. -/
def textOrderIsaBuild (X : TextOrderSampling) : TextOrderIsaSupport :=
  ⟨X.samples, X.marked⟩

/-- `operator[](i)`: `select_marked(inv_perm[i / sample_dens] + 1)`. -/
def TextOrderIsaSupport.get (D : TextOrderIsaSupport) (d i : Nat) : Nat :=
  select1 D.marked (ipInv D.perm (i / d) + 1)

/-- `sample_leq(i)` of `_text_order_isa_sampling_support`. -/
def TextOrderIsaSupport.sampleLeq (D : TextOrderIsaSupport) (d i : Nat) :
    Nat × Nat :=
  (select1 D.marked (ipInv D.perm (i / d) + 1), (i / d) * d)

/-- `sample_qeq(i)` of `_text_order_isa_sampling_support`:
`ci = (i/d + 1) % inv_perm.size()`. -/
def TextOrderIsaSupport.sampleQeq (D : TextOrderIsaSupport) (d i : Nat) :
    Nat × Nat :=
  (select1 D.marked (ipInv D.perm ((i / d + 1) % D.perm.length) + 1),
    ((i / d + 1) % D.perm.length) * d)

/-! ## `_fuzzy_isa_sampling_support` -/

/-- State of a built `_fuzzy_isa_sampling_support`: the non-owning
pointer to the companion `_fuzzy_sa_sampling` (whose `marked_isa`
select and `inv` it delegates to); its own select support over the
companion's `marked_sa` is derived data. -/
structure FuzzyIsaSupport where
  sa : FuzzySampling
  deriving Repr, DecidableEq

/-- Constructor from the companion `_fuzzy_sa_sampling`. -/
def fuzzyIsaBuild (X : FuzzySampling) : FuzzyIsaSupport := ⟨X⟩

/-- `operator[](i)`: `m_sa_p->inv(i)`. -/
def FuzzyIsaSupport.get (D : FuzzyIsaSupport) (i : Nat) : Nat :=
  D.sa.inv i

/-- `sample_leq(i)` (lines 1049-1066): `ci = i/d`,
`j = select_marked_isa(ci+1)`; when `j > i` step `ci` down, wrapping to
`size - 1`; answer `(select_marked_sa(inv(ci)+1), j)`. -/
def FuzzyIsaSupport.sampleLeq (D : FuzzyIsaSupport) (d i : Nat) : Nat × Nat :=
  let ci := i / d
  let j := select1 D.sa.marked_isa (ci + 1)
  if i < j then
    let ci2 := if 0 < ci then ci - 1 else D.sa.size - 1
    (select1 D.sa.marked_sa (D.sa.inv ci2 + 1), select1 D.sa.marked_isa (ci2 + 1))
  else
    (select1 D.sa.marked_sa (D.sa.inv ci + 1), j)

/-- `sample_qeq(i)` (lines 1069-1086): symmetric, stepping `ci` up and
wrapping to `0`. -/
def FuzzyIsaSupport.sampleQeq (D : FuzzyIsaSupport) (d i : Nat) : Nat × Nat :=
  let ci := i / d
  let j := select1 D.sa.marked_isa (ci + 1)
  if j < i then
    let ci2 := if ci < D.sa.size - 1 then ci + 1 else 0
    (select1 D.sa.marked_sa (D.sa.inv ci2 + 1), select1 D.sa.marked_isa (ci2 + 1))
  else
    (select1 D.sa.marked_sa (D.sa.inv ci + 1), j)

/-! ## Serialization

Modelled from the spec: the byte-level serialization of the primitive
members (`int_vector`, bitvectors, rank/select supports, wavelet tree)
is an external collaborator, described in §6 as a concatenation of
length-prefixed integer vectors written in the member order of §3; a
stream is modelled as a `List Nat`. -/

/-- Modelled from the spec: serialized form of an integer vector — the
length-prefixed value. -/
def encNatList (v : List Nat) : List Nat := v.length :: v

/-- Modelled from the spec: decoder of a length-prefixed integer
vector, returning the value and the remaining stream. -/
def decNatList (s : List Nat) : Option (List Nat × List Nat) :=
  match s with
  | [] => none
  | len :: rest =>
    if len ≤ rest.length then some (rest.take len, rest.drop len) else none

/-- Modelled from the spec: serialized form of a bitvector (bits as
0/1). -/
def encBits (bv : List Bool) : List Nat :=
  encNatList (bv.map (fun b => if b then 1 else 0))

/-- Modelled from the spec: bitvector decoder. -/
def decBits (s : List Nat) : Option (List Bool × List Nat) :=
  (decNatList s).map (fun p => (p.1.map (fun x => x == 1), p.2))

/-- Modelled from the spec: the serialized payload of a rank support,
derived from the bitvector it was initialised against (the support is
re-bound to its owner after `load`). -/
def encRankSupport (bv : List Bool) : List Nat :=
  encNatList ((List.range (bv.length + 1)).map (rank1 bv))

/-- Modelled from the spec: the serialized payload of a select support,
derived from the bitvector it was initialised against. -/
def encSelectSupport (bv : List Bool) : List Nat :=
  encNatList (onesList bv)

/-- `_sa_order_sampling::serialize`: the base `int_vector` only. -/
def SaOrderSampling.serialize (X : SaOrderSampling) : List Nat :=
  encNatList X.samples

/-- `_sa_order_sampling` `load`: read the base `int_vector`. -/
def SaOrderSampling.load (s : List Nat) : Option (SaOrderSampling × List Nat) :=
  (decNatList s).map (fun p => (⟨p.1⟩, p.2))

/-- `_text_order_sampling::serialize` (lines 241-250): `samples`,
`marked`, `rank_marked`, in this order. -/
def TextOrderSampling.serialize (X : TextOrderSampling) : List Nat :=
  encNatList X.samples ++ encBits X.marked ++ encRankSupport X.marked

/-- `_text_order_sampling::load` (lines 252-258): read the members in
serialization order, then re-bind the rank support to `marked`. -/
def TextOrderSampling.load (s : List Nat) :
    Option (TextOrderSampling × List Nat) :=
  match decNatList s with
  | none => none
  | some (samples, s1) =>
    match decBits s1 with
    | none => none
    | some (marked, s2) =>
      match decNatList s2 with
      | none => none
      | some (_, s3) => some (⟨samples, marked⟩, s3)

/-- `_bwt_sampling::serialize` (lines 691-700): `samples`, `marked`,
`rank_marked`. -/
def BwtSampling.serialize (X : BwtSampling) : List Nat :=
  encNatList X.samples ++ encBits X.marked ++ encRankSupport X.marked

/-- `_bwt_sampling::load` (lines 702-708). -/
def BwtSampling.load (s : List Nat) : Option (BwtSampling × List Nat) :=
  match decNatList s with
  | none => none
  | some (samples, s1) =>
    match decBits s1 with
    | none => none
    | some (marked, s2) =>
      match decNatList s2 with
      | none => none
      | some (_, s3) => some (⟨samples, marked⟩, s3)

/-- `_fuzzy_sa_sampling::serialize` (lines 475-486): `marked_sa`,
`rank_marked_sa`, `marked_isa`, `select_marked_isa`, `inv_perm`. -/
def FuzzySampling.serialize (X : FuzzySampling) : List Nat :=
  encBits X.marked_sa ++ encRankSupport X.marked_sa ++ encBits X.marked_isa
    ++ encSelectSupport X.marked_isa ++ encNatList X.inv_perm

/-- `_fuzzy_sa_sampling::load` (lines 488-497): read the members in
serialization order, re-binding each support to its owner. -/
def FuzzySampling.load (s : List Nat) : Option (FuzzySampling × List Nat) :=
  match decBits s with
  | none => none
  | some (msa, s1) =>
    match decNatList s1 with
    | none => none
    | some (_, s2) =>
      match decBits s2 with
      | none => none
      | some (misa, s3) =>
        match decNatList s3 with
        | none => none
        | some (_, s4) =>
          match decNatList s4 with
          | none => none
          | some (ip, s5) => some (⟨msa, misa, ip⟩, s5)

/-! ## Generic facts about the primitive models -/

theorem getD_map_range {α : Type} (h : Nat → α) {k B : Nat} (hk : k < B) (d0 : α) :
    ((List.range B).map h).getD k d0 = h k := by
  simp [List.getD_eq_getElem?_getD, List.getElem?_map, List.getElem?_range hk]

theorem rank1_map (f : Nat → Bool) (l : List Nat) (i : Nat) :
    rank1 (l.map f) i = (l.take i).countP f := by
  unfold rank1
  rw [← List.map_take, List.filter_map, List.length_map, List.countP_eq_length_filter]
  congr 1

theorem popcount_map (f : Nat → Bool) (l : List Nat) :
    popcount (l.map f) = l.countP f := by
  unfold popcount
  rw [List.filter_map, List.length_map, List.countP_eq_length_filter]
  congr 1

theorem rank1_map_range (g : Nat → Bool) {n i : Nat} (hi : i ≤ n) :
    rank1 ((List.range n).map g) i = (List.range i).countP g := by
  rw [rank1_map, List.take_range, Nat.min_eq_left hi]

theorem popcount_map_range (g : Nat → Bool) (n : Nat) :
    popcount ((List.range n).map g) = (List.range n).countP g :=
  popcount_map g _

/-- The element of the filtered list at the index given by the number of
earlier hits is the original element: `filter`/`rank` correspondence. -/
theorem filter_getElem?_countP (p : Nat → Bool) :
    ∀ (l : List Nat) (i : Nat), i < l.length → p (l.getD i 0) = true →
      (l.filter p)[(l.take i).countP p]? = some (l.getD i 0) := by
  intro l
  induction l with
  | nil => intro i hi _; simp at hi
  | cons a t ih =>
    intro i hi hp
    cases i with
    | zero =>
      rw [List.getD_cons_zero] at hp ⊢
      simp [List.filter_cons, hp]
    | succ j =>
      rw [List.getD_cons_succ] at hp ⊢
      have hj : j < t.length := by simpa using hi
      rw [List.take_succ_cons, List.countP_cons, List.filter_cons]
      by_cases ha : p a
      · simp only [ha, if_pos rfl, if_true]
        simpa using ih j hj hp
      · simp only [ha, Bool.false_eq_true, if_false]
        simpa using ih j hj hp

/-- There are strictly more hits in the whole list than before a hit
position. -/
theorem countP_take_lt_countP (p : Nat → Bool) (l : List Nat) (i : Nat)
    (hi : i < l.length) (hp : p (l.getD i 0) = true) :
    (l.take i).countP p < l.countP p := by
  have hsplit : l = l.take i ++ l.drop i := (List.take_append_drop i l).symm
  have hdrop : l.drop i = l[i] :: l.drop (i + 1) := List.drop_eq_getElem_cons hi
  have hget : l[i] = l.getD i 0 := by
    simp [List.getD_eq_getElem?_getD, List.getElem?_eq_getElem hi]
  calc (l.take i).countP p < (l.take i).countP p + (1 + (l.drop (i+1)).countP p) := by omega
    _ = l.countP p := by
        conv_rhs => rw [hsplit]
        rw [List.countP_append, hdrop, List.countP_cons, hget, hp, if_pos rfl]
        omega

/-- The prefix of length `i ≤ n` of a bitvector of length `n`, seen as a
map over `range n`. -/
theorem take_eq_map_range_getD (bv : List Bool) (i : Nat) (hi : i ≤ bv.length) :
    bv.take i = (List.range i).map (fun j => bv.getD j false) := by
  apply List.ext_getElem
  · simp [Nat.min_eq_left hi]
  · intro k h1 h2
    have hk : k < i := by simpa using h2
    have hkl : k < bv.length := lt_of_lt_of_le hk hi
    simp [List.getElem_take, List.getD_eq_getElem?_getD, List.getElem?_eq_getElem hkl]

theorem rank1_eq_countP_range (bv : List Bool) (i : Nat) (hi : i ≤ bv.length) :
    rank1 bv i = (List.range i).countP (fun j => bv.getD j false) := by
  unfold rank1
  rw [take_eq_map_range_getD bv i hi, List.filter_map, List.length_map,
    List.countP_eq_length_filter]
  congr 1

theorem onesList_getElem?_rank1 (bv : List Bool) (i : Nat) (hi : i < bv.length)
    (hb : bv.getD i false = true) :
    (onesList bv)[rank1 bv i]? = some i := by
  unfold onesList
  rw [rank1_eq_countP_range bv i (Nat.le_of_lt hi)]
  have htake : List.take i (List.range bv.length) = List.range i := by
    rw [List.take_range, Nat.min_eq_left (Nat.le_of_lt hi)]
  rw [← htake]
  have hlen : i < (List.range bv.length).length := by simpa using hi
  have hget : (List.range bv.length).getD i 0 = i := by
    simp [List.getD_eq_getElem?_getD, List.getElem?_range hi]
  have := filter_getElem?_countP (fun j => bv.getD j false) (List.range bv.length) i hlen
    (by rwa [hget])
  rwa [hget] at this

/-- Rank followed by (1-based) select is the identity at marked positions. -/
theorem select1_rank1 (bv : List Bool) (i : Nat) (hi : i < bv.length)
    (hb : bv.getD i false = true) :
    select1 bv (rank1 bv i + 1) = i := by
  unfold select1
  rw [Nat.add_sub_cancel, List.getD_eq_getElem?_getD, onesList_getElem?_rank1 bv i hi hb]
  rfl

theorem rank1_lt_popcount (bv : List Bool) (i : Nat) (hi : i < bv.length)
    (hb : bv.getD i false = true) :
    rank1 bv i < popcount bv := by
  have h1 : rank1 bv i = ((List.range bv.length).take i).countP (fun j => bv.getD j false) := by
    rw [rank1_eq_countP_range bv i (Nat.le_of_lt hi), List.take_range,
      Nat.min_eq_left (Nat.le_of_lt hi)]
  have h2 : popcount bv = (List.range bv.length).countP (fun j => bv.getD j false) := by
    have : bv = (List.range bv.length).map (fun j => bv.getD j false) := by
      have := take_eq_map_range_getD bv bv.length (Nat.le_refl _)
      simpa using this
    conv_lhs => rw [this]
    rw [popcount_map_range]
  rw [h1, h2]
  refine countP_take_lt_countP _ _ i (by simpa using hi) ?_
  simpa [List.getD_eq_getElem?_getD, List.getElem?_range hi] using hb

/-- Rank at marked positions is strictly monotone. -/
theorem rank1_strict_mono_marked (bv : List Bool) {i j : Nat} (hij : i < j)
    (hj : j ≤ bv.length) (hb : bv.getD i false = true) :
    rank1 bv i < rank1 bv j := by
  rw [rank1_eq_countP_range bv i (by omega), rank1_eq_countP_range bv j hj]
  have hsplit : List.range (i + 1) ++ (List.range' (i+1) (j - (i+1))) = List.range j := by
    rw [List.range_eq_range', List.range_eq_range']
    have := List.range'_append 0 (i+1) (j - (i+1)) 1
    simpa [Nat.add_comm, show i + 1 + (j - (i + 1)) = j by omega] using this
  rw [← hsplit, List.countP_append, List.range_succ, List.countP_append]
  have hone : List.countP (fun k => bv.getD k false) [i] = 1 := by
    simp only [List.countP_cons, List.countP_nil]
    rw [hb]
    simp
  omega

/-- Number of multiples of `d` in `[0, n)` is `⌈n/d⌉`. -/
theorem countP_range_mod (d : Nat) (hd : 1 ≤ d) (n : Nat) :
    (List.range n).countP (fun v => v % d == 0) = ceilDiv n d := by
  induction n with
  | zero =>
    have : ceilDiv 0 d = 0 := by
      unfold ceilDiv
      rw [Nat.div_eq_of_lt (by omega)]
    rw [this]
    simp
  | succ m ih =>
    rw [List.range_succ, List.countP_append, ih]
    have hone : List.countP (fun v => v % d == 0) [m]
        = if d ∣ m then 1 else 0 := by
      by_cases hdvd : d ∣ m
      · have : m % d = 0 := (Nat.dvd_iff_mod_eq_zero).mp hdvd
        simp [List.countP_cons, this, hdvd]
      · have : ¬ (m % d = 0) := fun h => hdvd ((Nat.dvd_iff_mod_eq_zero).mpr h)
        simp [List.countP_cons, this, hdvd]
    rw [hone]
    have h2 : ceilDiv (m+1) d = m / d + 1 := by
      unfold ceilDiv
      rw [show m + 1 + d - 1 = m + d by omega, Nat.add_div_right _ (by omega)]
    by_cases hm : m = 0
    · subst hm
      rw [h2]
      have hz : ceilDiv 0 d = 0 := by
        unfold ceilDiv
        rw [Nat.div_eq_of_lt (by omega)]
      rw [hz]
      simp
    · have h1 : ceilDiv m d = (m - 1) / d + 1 := by
        unfold ceilDiv
        rw [show m + d - 1 = (m - 1) + d by omega, Nat.add_div_right _ (by omega)]
      have h3 : m / d = (m - 1) / d + if d ∣ m then 1 else 0 := by
        have h := Nat.succ_div (m - 1) d
        rwa [show m - 1 + 1 = m by omega] at h
      rw [h1, h2, h3]
      omega

/-- A duplicate-free list of `B` naturals below `B` is a permutation of
`range B`. -/
theorem perm_range_of_nodup_lt {l : List Nat} {B : Nat} (hnd : l.Nodup)
    (hlt : ∀ x ∈ l, x < B) (hlen : l.length = B) : List.Perm l (List.range B) := by
  have hsub : l ⊆ List.range B := fun x hx => List.mem_range.mpr (hlt x hx)
  exact (List.subperm_of_subset hnd hsub).perm_of_length_le (by simp [hlen])

/-- `findIdx (· == v)` on a duplicate-free list returns the position of
`v`. -/
theorem findIdx_beq_of_nodup : ∀ (l : List Nat) (r : Nat) (v : Nat), l.Nodup →
    l[r]? = some v → l.findIdx (fun x => x == v) = r := by
  intro l
  induction l with
  | nil => intro r v _ hr; simp at hr
  | cons a t ih =>
    intro r v hnd hr
    cases r with
    | zero =>
      simp only [List.getElem?_cons_zero, Option.some_inj] at hr
      subst hr
      simp [List.findIdx_cons]
    | succ j =>
      rw [List.getElem?_cons_succ] at hr
      have hv : v ∈ t := by
        rw [List.mem_iff_getElem?]; exact ⟨j, hr⟩
      have hne : (a == v) = false := by
        have : a ≠ v := fun h => (List.nodup_cons.mp hnd).1 (h ▸ hv)
        simpa using this
      rw [List.findIdx_cons, hne, cond_false, ih j v (List.nodup_cons.mp hnd).2 hr]

/-- Filtering a list equals reading off the values at the indices that
pass the test, in index order. -/
theorem filter_eq_map_getD_filter_range {α : Type} (p : α → Bool) (d0 : α) :
    ∀ l : List α,
      l.filter p
        = ((List.range l.length).filter (fun i => p (l.getD i d0))).map
            (fun i => l.getD i d0) := by
  intro l
  induction l with
  | nil => simp
  | cons a t ih =>
    rw [List.filter_cons, List.length_cons, List.range_succ_eq_map, List.filter_cons]
    have hfq : List.filter (fun i => p ((a :: t).getD i d0))
          (List.map Nat.succ (List.range t.length))
        = List.map Nat.succ
            (List.filter (fun i => p (t.getD i d0)) (List.range t.length)) := by
      rw [List.filter_map]
      refine congrArg (List.map Nat.succ) (List.filter_congr ?_)
      intro i _
      show p ((a :: t).getD (i + 1) d0) = p (t.getD i d0)
      rw [List.getD_cons_succ]
    have hm : List.map ((fun i => (a :: t).getD i d0) ∘ Nat.succ)
          (List.filter (fun i => p (t.getD i d0)) (List.range t.length))
        = List.map (fun i => t.getD i d0)
            (List.filter (fun i => p (t.getD i d0)) (List.range t.length)) := by
      refine List.map_congr_left ?_
      intro i _
      show (a :: t).getD (i + 1) d0 = t.getD i d0
      rw [List.getD_cons_succ]
    have htail : List.map (fun i => (a :: t).getD i d0)
          (List.filter (fun i => p ((a :: t).getD i d0))
            (List.map Nat.succ (List.range t.length)))
        = List.filter p t := by
      rw [hfq, List.map_map, hm, ← ih]
    rw [List.getD_cons_zero]
    by_cases ha : p a
    · rw [if_pos ha, if_pos ha, List.map_cons, htail, List.getD_cons_zero]
    · rw [if_neg ha, if_neg ha, htail]


theorem getD_map_of_lt {α β : Type} (f : α → β) (l : List α) (i : Nat)
    (hi : i < l.length) (d0 : α) (d1 : β) :
    (l.map f).getD i d1 = f (l.getD i d0) := by
  simp [List.getD_eq_getElem?_getD, List.getElem?_map, List.getElem?_eq_getElem hi]

theorem ceilDiv_eq_pred_div_succ {n d : Nat} (hd : 1 ≤ d) (hn : 1 ≤ n) :
    ceilDiv n d = (n - 1) / d + 1 := by
  unfold ceilDiv
  rw [show n + d - 1 = (n - 1) + d by omega, Nat.add_div_right _ (by omega)]

theorem div_lt_ceilDiv {n d i : Nat} (hd : 1 ≤ d) (hi : i < n) :
    i / d < ceilDiv n d := by
  have h1 : i / d ≤ (n - 1) / d := Nat.div_le_div_right (by omega)
  have h2 := ceilDiv_eq_pred_div_succ hd (show 1 ≤ n by omega)
  omega

/-! ## Facts about the text-order build -/

theorem textOrderRaw_length {d n : Nat} {SA : List Nat} (hd : 1 ≤ d)
    (hperm : List.Perm SA (List.range n)) :
    (textOrderRaw d SA).length = ceilDiv n d := by
  unfold textOrderRaw
  rw [List.length_map, ← List.countP_eq_length_filter,
    hperm.countP_eq, countP_range_mod d hd]

/-- Under the permutation hypothesis the resized sample vector is
exactly the list of condensed samples: no zero padding remains. -/
theorem textOrderBuild_samples {d n : Nat} {SA : List Nat} (hd : 1 ≤ d)
    (hperm : List.Perm SA (List.range n)) :
    (textOrderBuild d SA).samples = textOrderRaw d SA := by
  have hn : SA.length = n := by simpa using hperm.length_eq
  show textOrderRaw d SA ++ _ = textOrderRaw d SA
  rw [textOrderRaw_length hd hperm, hn, Nat.sub_self, List.replicate_zero,
    List.append_nil]

theorem textOrder_marked_getD {d : Nat} {SA : List Nat} {i : Nat}
    (hi : i < SA.length) :
    (textOrderBuild d SA).marked.getD i false = (SA.getD i 0 % d == 0) :=
  getD_map_of_lt _ SA i hi 0 false

theorem textOrder_rank (d : Nat) (SA : List Nat) (i : Nat) :
    rank1 (textOrderBuild d SA).marked i
      = (SA.take i).countP (fun sa => sa % d == 0) :=
  rank1_map _ SA i

/-- The condensed sample at the rank of a marked SA index `i` is
`SA[i] / d`. -/
theorem textOrder_samples_at_rank {d n : Nat} {SA : List Nat} (hd : 1 ≤ d)
    (hperm : List.Perm SA (List.range n)) {i : Nat} (hi : i < SA.length)
    (hm : SA.getD i 0 % d == 0) :
    (textOrderBuild d SA).samples.getD
        (rank1 (textOrderBuild d SA).marked i) 0
      = SA.getD i 0 / d := by
  rw [textOrderBuild_samples hd hperm, textOrder_rank]
  unfold textOrderRaw
  have h := filter_getElem?_countP (fun sa => sa % d == 0) SA i hi hm
  rw [List.getD_eq_getElem?_getD, List.getElem?_map, h]
  rfl

/-- C4.  After a text-order build with stride `d ≥ 1` from a suffix
array that is a permutation of `[0, n)`: `marked` has length `n` and
exactly `⌈n/d⌉` ones, `marked[i] = 1 ↔ SA[i] % d == 0`, and for every
marked `i` the stored sample is `samples[rank1(marked, i)] = SA[i]/d`. -/
theorem text_order_invariants (d n : Nat) (SA : List Nat) (hd : 1 ≤ d)
    (hperm : List.Perm SA (List.range n)) :
    (textOrderBuild d SA).marked.length = n
    ∧ popcount (textOrderBuild d SA).marked = ceilDiv n d
    ∧ (∀ i, i < n →
        ((textOrderBuild d SA).marked.getD i false = true ↔ SA.getD i 0 % d = 0))
    ∧ (∀ i, i < n → (textOrderBuild d SA).marked.getD i false = true →
        (textOrderBuild d SA).samples.getD
            (rank1 (textOrderBuild d SA).marked i) 0
          = SA.getD i 0 / d) := by
  have hn : SA.length = n := by simpa using hperm.length_eq
  refine ⟨?_, ?_, ?_, ?_⟩
  · show (SA.map _).length = n
    rw [List.length_map, hn]
  · show popcount (SA.map _) = _
    rw [popcount_map, hperm.countP_eq, countP_range_mod d hd]
  · intro i hi
    rw [textOrder_marked_getD (by omega : i < SA.length)]
    simp
  · intro i hi hm
    rw [textOrder_marked_getD (by omega : i < SA.length)] at hm
    exact textOrder_samples_at_rank hd hperm (by omega) hm

/-- Witness for `text_order_invariants` at the worked example of the
source header: `T = ABCDEFABCDEF$`, `d = 2`. -/
theorem text_order_invariants_witness :
    (1 ≤ 2
      ∧ List.Perm [12, 6, 0, 7, 1, 8, 2, 9, 3, 10, 4, 11, 5] (List.range 13))
    ∧ ((textOrderBuild 2 [12, 6, 0, 7, 1, 8, 2, 9, 3, 10, 4, 11, 5]).marked.length = 13
    ∧ popcount (textOrderBuild 2 [12, 6, 0, 7, 1, 8, 2, 9, 3, 10, 4, 11, 5]).marked = ceilDiv 13 2
    ∧ (∀ i, i < 13 →
        ((textOrderBuild 2 [12, 6, 0, 7, 1, 8, 2, 9, 3, 10, 4, 11, 5]).marked.getD i false = true
          ↔ [12, 6, 0, 7, 1, 8, 2, 9, 3, 10, 4, 11, 5].getD i 0 % 2 = 0))
    ∧ (∀ i, i < 13 →
        (textOrderBuild 2 [12, 6, 0, 7, 1, 8, 2, 9, 3, 10, 4, 11, 5]).marked.getD i false = true →
        (textOrderBuild 2 [12, 6, 0, 7, 1, 8, 2, 9, 3, 10, 4, 11, 5]).samples.getD
            (rank1 (textOrderBuild 2 [12, 6, 0, 7, 1, 8, 2, 9, 3, 10, 4, 11, 5]).marked i) 0
          = [12, 6, 0, 7, 1, 8, 2, 9, 3, 10, 4, 11, 5].getD i 0 / 2)) :=
  ⟨⟨by decide, by decide⟩,
    text_order_invariants 2 13 [12, 6, 0, 7, 1, 8, 2, 9, 3, 10, 4, 11, 5]
      (by decide) (by decide)⟩

/-! ## Facts about the suffix-order build -/

/-- C10.  `_sa_order_sampling::operator[](i)` is defined for every
`i < n` (sampled or not) and returns `SA[d·⌊i/d⌋]`, the sample of the
block containing `i`. -/
theorem sa_order_get_eq (d : Nat) (SA : List Nat) (hd : 1 ≤ d) (i : Nat)
    (hi : i < SA.length) :
    (saOrderBuild d SA).get d i = SA.getD (d * (i / d)) 0 := by
  unfold saOrderBuild SaOrderSampling.get
  rw [getD_map_range _ (div_lt_ceilDiv hd hi) 0, Nat.mul_comm]

/-- Witness for `sa_order_get_eq`: the header example with `d = 2`,
where `X[5] = samples[2] = SA[4] = 1`. -/
theorem sa_order_get_eq_witness :
    (1 ≤ 2 ∧ 5 < ([12, 6, 0, 7, 1, 8, 2, 9, 3, 10, 4, 11, 5] : List Nat).length)
    ∧ (saOrderBuild 2 [12, 6, 0, 7, 1, 8, 2, 9, 3, 10, 4, 11, 5]).get 2 5
        = [12, 6, 0, 7, 1, 8, 2, 9, 3, 10, 4, 11, 5].getD (2 * (5 / 2)) 0 :=
  ⟨⟨by decide, by decide⟩,
    sa_order_get_eq 2 [12, 6, 0, 7, 1, 8, 2, 9, 3, 10, 4, 11, 5] (by decide) 5 (by decide)⟩

/-! ## Facts about the BWT-driven build -/

theorem bwt_zip_getD {SA BWT : List Nat} (hlen : BWT.length = SA.length)
    {i : Nat} (hi : i < SA.length) :
    (SA.zip BWT).getD i (0, 0) = (SA.getD i 0, BWT.getD i 0) := by
  have hiz : i < (SA.zip BWT).length := by
    rw [List.length_zip, hlen, Nat.min_self]
    exact hi
  rw [List.getD_eq_getElem?_getD, List.getElem?_eq_getElem hiz, List.getElem_zip]
  have hib : i < BWT.length := by omega
  simp [List.getD_eq_getElem?_getD, List.getElem?_eq_getElem hi,
    List.getElem?_eq_getElem hib]

theorem bwt_marked_getD (d : Nat) (S : List Nat) {SA BWT : List Nat}
    (hlen : BWT.length = SA.length) {i : Nat} (hi : i < SA.length) :
    (bwtBuild d SA BWT S).marked.getD i false
      = bwtMark d S (SA.getD i 0) (BWT.getD i 0) := by
  show ((SA.zip BWT).map _).getD i false = _
  have hiz : i < (SA.zip BWT).length := by
    rw [List.length_zip, hlen, Nat.min_self]
    exact hi
  rw [getD_map_of_lt _ _ i hiz (0, 0) false, bwt_zip_getD hlen hi]

/-- C8.  After a bwt-sampling build with stride `d` from `SA`, `BWT` of
equal length, and sample-char set `S`: `marked[i] = 1` iff
`SA[i] % d == 0` or `BWT[i] ∈ S`, and `samples` is exactly the list of
the values `SA[i]` over the marked indices `i` in increasing order. -/
theorem bwt_build_spec (d : Nat) (SA BWT S : List Nat)
    (hlen : BWT.length = SA.length) :
    (∀ i, i < SA.length →
      ((bwtBuild d SA BWT S).marked.getD i false = true
        ↔ (SA.getD i 0 % d = 0 ∨ BWT.getD i 0 ∈ S)))
    ∧ (bwtBuild d SA BWT S).samples
        = ((List.range SA.length).filter
            (fun i => (bwtBuild d SA BWT S).marked.getD i false)).map
          (fun i => SA.getD i 0) := by
  have hzlen : (SA.zip BWT).length = SA.length := by
    rw [List.length_zip, hlen, Nat.min_self]
  constructor
  · intro i hi
    rw [bwt_marked_getD d S hlen hi]
    unfold bwtMark
    simp [List.elem_iff]
  · show ((SA.zip BWT).filter _).map _ = _
    rw [filter_eq_map_getD_filter_range (fun p => bwtMark d S p.1 p.2) (0, 0)
      (SA.zip BWT), List.map_map, hzlen]
    have hfilter : List.filter
          (fun i => bwtMark d S ((SA.zip BWT).getD i (0, 0)).1
            ((SA.zip BWT).getD i (0, 0)).2) (List.range SA.length)
        = List.filter (fun i => (bwtBuild d SA BWT S).marked.getD i false)
            (List.range SA.length) := by
      refine List.filter_congr ?_
      intro i hmem
      have hin : i < SA.length := List.mem_range.mp hmem
      rw [bwt_marked_getD d S hlen hin, bwt_zip_getD hlen hin]
    have hmap : ∀ L : List Nat, (∀ i ∈ L, i < SA.length) →
        List.map ((fun p : Nat × Nat => p.1) ∘ fun i => (SA.zip BWT).getD i (0, 0)) L
          = List.map (fun i => SA.getD i 0) L := by
      intro L hL
      refine List.map_congr_left ?_
      intro i hiL
      show ((SA.zip BWT).getD i (0, 0)).1 = SA.getD i 0
      rw [bwt_zip_getD hlen (hL i hiL)]
    calc List.map ((fun p : Nat × Nat => p.1) ∘ fun i => (SA.zip BWT).getD i (0, 0))
          (List.filter (fun i => bwtMark d S ((SA.zip BWT).getD i (0, 0)).1
            ((SA.zip BWT).getD i (0, 0)).2) (List.range SA.length))
        = List.map ((fun p : Nat × Nat => p.1) ∘ fun i => (SA.zip BWT).getD i (0, 0))
            (List.filter (fun i => (bwtBuild d SA BWT S).marked.getD i false)
              (List.range SA.length)) := by rw [hfilter]
      _ = List.map (fun i => SA.getD i 0)
            (List.filter (fun i => (bwtBuild d SA BWT S).marked.getD i false)
              (List.range SA.length)) := by
            refine hmap _ ?_
            intro i hiL
            exact List.mem_range.mp (List.mem_of_mem_filter hiL)

/-- Witness for `bwt_build_spec` at the header example:
`T = ABCDEFABCDEF$`, `d = 4`, `S = {B, E}` (coded as 66 and 69). -/
theorem bwt_build_spec_witness :
    (([70, 70, 36, 65, 65, 66, 66, 67, 67, 68, 68, 69, 69] : List Nat).length
      = ([12, 6, 0, 7, 1, 8, 2, 9, 3, 10, 4, 11, 5] : List Nat).length)
    ∧ ((∀ i, i < ([12, 6, 0, 7, 1, 8, 2, 9, 3, 10, 4, 11, 5] : List Nat).length →
      ((bwtBuild 4 [12, 6, 0, 7, 1, 8, 2, 9, 3, 10, 4, 11, 5]
          [70, 70, 36, 65, 65, 66, 66, 67, 67, 68, 68, 69, 69] [66, 69]).marked.getD i false = true
        ↔ ([12, 6, 0, 7, 1, 8, 2, 9, 3, 10, 4, 11, 5].getD i 0 % 4 = 0
            ∨ [70, 70, 36, 65, 65, 66, 66, 67, 67, 68, 68, 69, 69].getD i 0 ∈ ([66, 69] : List Nat))))
    ∧ (bwtBuild 4 [12, 6, 0, 7, 1, 8, 2, 9, 3, 10, 4, 11, 5]
          [70, 70, 36, 65, 65, 66, 66, 67, 67, 68, 68, 69, 69] [66, 69]).samples
        = ((List.range ([12, 6, 0, 7, 1, 8, 2, 9, 3, 10, 4, 11, 5] : List Nat).length).filter
            (fun i => (bwtBuild 4 [12, 6, 0, 7, 1, 8, 2, 9, 3, 10, 4, 11, 5]
              [70, 70, 36, 65, 65, 66, 66, 67, 67, 68, 68, 69, 69] [66, 69]).marked.getD i false)).map
          (fun i => [12, 6, 0, 7, 1, 8, 2, 9, 3, 10, 4, 11, 5].getD i 0)) :=
  ⟨by decide,
    bwt_build_spec 4 [12, 6, 0, 7, 1, 8, 2, 9, 3, 10, 4, 11, 5]
      [70, 70, 36, 65, 65, 66, 66, 67, 67, 68, 68, 69, 69] [66, 69] (by decide)⟩

/-- C1 fails on `_bwt_sampling`: `operator[]` multiplies the stored full
SA value by `sample_dens` (line 667), so at `SA = [1, 0]`,
`BWT = [7, 5]`, `S = {7}`, `d = 2`, position `0` is sampled (its BWT
character is in `S`) yet `X[0] = 2 ≠ SA[0] = 1`. -/
theorem bwt_get_neq_sa :
    List.Perm [1, 0] (List.range 2)
    ∧ (bwtBuild 2 [1, 0] [7, 5] [7]).isSampled 0 = true
    ∧ (bwtBuild 2 [1, 0] [7, 5] [7]).get 2 0 = 2
    ∧ ([1, 0] : List Nat).getD 0 0 = 1 := by decide

/-! ## Round-trip of serialization -/

theorem decNatList_encNatList (v rest : List Nat) :
    decNatList (encNatList v ++ rest) = some (v, rest) := by
  show (if v.length ≤ (v ++ rest).length
      then some ((v ++ rest).take v.length, (v ++ rest).drop v.length)
      else none) = some (v, rest)
  rw [if_pos (by simp), List.take_left, List.drop_left]

theorem decNatList_encNatList_nil (v : List Nat) :
    decNatList (encNatList v) = some (v, []) := by
  have h := decNatList_encNatList v []
  rwa [List.append_nil] at h

theorem decBits_encBits (bv : List Bool) (rest : List Nat) :
    decBits (encBits bv ++ rest) = some (bv, rest) := by
  unfold decBits encBits
  rw [decNatList_encNatList]
  show some ((bv.map fun b => if b then (1 : Nat) else 0).map (fun x => x == 1), rest)
    = some (bv, rest)
  rw [List.map_map]
  have hcomp : ((fun x : Nat => x == 1) ∘ fun b : Bool => if b then (1 : Nat) else 0)
      = id := by
    funext b
    cases b <;> rfl
  rw [hcomp, List.map_id]

theorem decBits_encBits_nil (bv : List Bool) :
    decBits (encBits bv) = some (bv, []) := by
  have h := decBits_encBits bv []
  rwa [List.append_nil] at h

/-- C7.  For each SA-sampling strategy, serializing and loading back
yields a value-equal instance whose `is_sampled` and `operator[]`
observables agree everywhere with the original. -/
theorem serialize_load_roundtrip :
    (∀ X : SaOrderSampling, SaOrderSampling.load X.serialize = some (X, [])
      ∧ ∀ X2 : SaOrderSampling, ∀ rest : List Nat,
          SaOrderSampling.load X.serialize = some (X2, rest) →
          X2 = X ∧ ∀ d i : Nat, X2.get d i = X.get d i)
    ∧ (∀ X : TextOrderSampling, TextOrderSampling.load X.serialize = some (X, [])
      ∧ ∀ X2 : TextOrderSampling, ∀ rest : List Nat,
          TextOrderSampling.load X.serialize = some (X2, rest) →
          X2 = X ∧ (∀ i : Nat, X2.isSampled i = X.isSampled i)
            ∧ ∀ d i : Nat, X2.get d i = X.get d i)
    ∧ (∀ X : BwtSampling, BwtSampling.load X.serialize = some (X, [])
      ∧ ∀ X2 : BwtSampling, ∀ rest : List Nat,
          BwtSampling.load X.serialize = some (X2, rest) →
          X2 = X ∧ (∀ i : Nat, X2.isSampled i = X.isSampled i)
            ∧ ∀ d i : Nat, X2.get d i = X.get d i)
    ∧ (∀ X : FuzzySampling, FuzzySampling.load X.serialize = some (X, [])
      ∧ ∀ X2 : FuzzySampling, ∀ rest : List Nat,
          FuzzySampling.load X.serialize = some (X2, rest) →
          X2 = X ∧ (∀ i : Nat, X2.isSampled i = X.isSampled i)
            ∧ ∀ i : Nat, X2.get i = X.get i) := by
  have hsa : ∀ X : SaOrderSampling,
      SaOrderSampling.load X.serialize = some (X, []) := by
    intro X
    unfold SaOrderSampling.load SaOrderSampling.serialize
    rw [decNatList_encNatList_nil]
    rfl
  have hto : ∀ X : TextOrderSampling,
      TextOrderSampling.load X.serialize = some (X, []) := by
    intro X
    unfold TextOrderSampling.load TextOrderSampling.serialize
    simp only [encRankSupport, List.append_assoc, decNatList_encNatList,
      decBits_encBits, decNatList_encNatList_nil]
  have hbwt : ∀ X : BwtSampling,
      BwtSampling.load X.serialize = some (X, []) := by
    intro X
    unfold BwtSampling.load BwtSampling.serialize
    simp only [encRankSupport, List.append_assoc, decNatList_encNatList,
      decBits_encBits, decNatList_encNatList_nil]
  have hfz : ∀ X : FuzzySampling,
      FuzzySampling.load X.serialize = some (X, []) := by
    intro X
    unfold FuzzySampling.load FuzzySampling.serialize
    simp only [encRankSupport, encSelectSupport, List.append_assoc,
      decBits_encBits, decNatList_encNatList, decNatList_encNatList_nil]
  refine ⟨fun X => ⟨hsa X, ?_⟩, fun X => ⟨hto X, ?_⟩,
    fun X => ⟨hbwt X, ?_⟩, fun X => ⟨hfz X, ?_⟩⟩
  · intro X2 rest h
    rw [hsa X] at h
    obtain ⟨h1, -⟩ := Prod.mk.injEq .. ▸ Option.some_inj.mp h
    exact ⟨h1.symm, fun d i => by rw [h1]⟩
  · intro X2 rest h
    rw [hto X] at h
    obtain ⟨h1, -⟩ := Prod.mk.injEq .. ▸ Option.some_inj.mp h
    exact ⟨h1.symm, fun i => by rw [h1], fun d i => by rw [h1]⟩
  · intro X2 rest h
    rw [hbwt X] at h
    obtain ⟨h1, -⟩ := Prod.mk.injEq .. ▸ Option.some_inj.mp h
    exact ⟨h1.symm, fun i => by rw [h1], fun d i => by rw [h1]⟩
  · intro X2 rest h
    rw [hfz X] at h
    obtain ⟨h1, -⟩ := Prod.mk.injEq .. ▸ Option.some_inj.mp h
    exact ⟨h1.symm, fun i => by rw [h1], fun i => by rw [h1]⟩

/-- Witness for `serialize_load_roundtrip` at a concrete text-order
instance. -/
theorem serialize_load_roundtrip_witness :
    TextOrderSampling.load
        (TextOrderSampling.serialize ⟨[6, 0, 3], [true, false, true]⟩)
      = some (⟨[6, 0, 3], [true, false, true]⟩, []) :=
  (serialize_load_roundtrip.2.1 ⟨[6, 0, 3], [true, false, true]⟩).1

/-! ## Facts about permutation inputs -/

theorem perm_length {SA : List Nat} {n : Nat}
    (hperm : List.Perm SA (List.range n)) : SA.length = n := by
  simpa using hperm.length_eq

theorem perm_getD_lt {SA : List Nat} {n : Nat}
    (hperm : List.Perm SA (List.range n)) {i : Nat} (hi : i < SA.length) :
    SA.getD i 0 < n := by
  have hmem : SA.getD i 0 ∈ SA := by
    rw [List.getD_eq_getElem?_getD, List.getElem?_eq_getElem hi]
    exact List.getElem_mem hi
  exact List.mem_range.mp (hperm.mem_iff.mp hmem)

theorem perm_getD_inj {SA : List Nat} {n : Nat}
    (hperm : List.Perm SA (List.range n)) {i j : Nat} (hi : i < SA.length)
    (hj : j < SA.length) (h : SA.getD i 0 = SA.getD j 0) : i = j := by
  have hnd : SA.Nodup := hperm.nodup_iff.mpr (List.nodup_range n)
  rw [List.getD_eq_getElem?_getD, List.getElem?_eq_getElem hi,
    List.getD_eq_getElem?_getD, List.getElem?_eq_getElem hj] at h
  exact (hnd.getElem_inj_iff).mp (by simpa using h)

theorem perm_exists_index {SA : List Nat} {n : Nat}
    (hperm : List.Perm SA (List.range n)) {v : Nat} (hv : v < n) :
    ∃ i, i < SA.length ∧ SA.getD i 0 = v := by
  have hmem : v ∈ SA := hperm.mem_iff.mpr (List.mem_range.mpr hv)
  obtain ⟨k, hk⟩ := List.mem_iff_getElem?.mp hmem
  have hklt : k < SA.length := by
    by_contra hge
    rw [List.getElem?_eq_none (by omega)] at hk
    exact Option.noConfusion hk
  refine ⟨k, hklt, ?_⟩
  rw [List.getD_eq_getElem?_getD, hk]
  rfl

/-! ## Facts about the plain ISA sampling build -/

/-- The fold of the `_isa_sampling` constructor leaves entry `k`
untouched when no processed index writes to it. -/
theorem isaFold_unchanged (d : Nat) (SA : List Nat) (k : Nat) :
    ∀ (l : List Nat) (iv0 : List Nat),
      (∀ i ∈ l, ¬((SA.getD i 0 % d == 0) = true ∧ SA.getD i 0 / d = k)) →
      ((l.foldl
          (fun iv i =>
            if SA.getD i 0 % d == 0 then iv.set (SA.getD i 0 / d) i else iv)
          iv0).getD k 0) = iv0.getD k 0 := by
  intro l
  induction l with
  | nil => intro iv0 _; rfl
  | cons i t ih =>
    intro iv0 hnw
    rw [List.foldl_cons]
    by_cases hm : (SA.getD i 0 % d == 0) = true
    · rw [if_pos hm]
      have hne : SA.getD i 0 / d ≠ k := fun h => hnw i (by simp) ⟨hm, h⟩
      rw [ih _ (fun j hj => hnw j (by simp [hj]))]
      rw [List.getD_eq_getElem?_getD, List.getElem?_set_ne hne,
        ← List.getD_eq_getElem?_getD]
    · rw [if_neg hm]
      exact ih _ (fun j hj => hnw j (by simp [hj]))

/-- The fold of the `_isa_sampling` constructor preserves the vector
length. -/
theorem isaFold_length (d : Nat) (SA : List Nat) :
    ∀ (l : List Nat) (iv0 : List Nat),
      (l.foldl
          (fun iv i =>
            if SA.getD i 0 % d == 0 then iv.set (SA.getD i 0 / d) i else iv)
          iv0).length = iv0.length := by
  intro l
  induction l with
  | nil => intro iv0; rfl
  | cons i t ih =>
    intro iv0
    rw [List.foldl_cons]
    by_cases hm : (SA.getD i 0 % d == 0) = true
    · rw [if_pos hm, ih, List.length_set]
    · rw [if_neg hm, ih]

/-- After the fold, entry `k` holds the unique writer when exactly the
middle index writes to it and nothing later does. -/
theorem isaFold_last_writer (d : Nat) (SA : List Nat) (k : Nat)
    (l1 l2 : List Nat) (i : Nat) (iv0 : List Nat)
    (hm : (SA.getD i 0 % d == 0) = true) (hk : SA.getD i 0 / d = k)
    (hklen : k < iv0.length)
    (hl2 : ∀ j ∈ l2, ¬((SA.getD j 0 % d == 0) = true ∧ SA.getD j 0 / d = k)) :
    (((l1 ++ i :: l2).foldl
        (fun iv i2 =>
          if SA.getD i2 0 % d == 0 then iv.set (SA.getD i2 0 / d) i2 else iv)
        iv0).getD k 0) = i := by
  rw [List.foldl_append, List.foldl_cons, if_pos hm, hk]
  rw [isaFold_unchanged d SA k l2 _ hl2]
  have hlen : k < ((l1.foldl
      (fun iv i2 =>
        if SA.getD i2 0 % d == 0 then iv.set (SA.getD i2 0 / d) i2 else iv)
      iv0)).length := by
    rw [isaFold_length]
    exact hklen
  rw [List.getD_eq_getElem?_getD, List.getElem?_set_self hlen]
  rfl

/-- Entry `k` of the built `_isa_sampling` is the SA position of text
position `k·d`: `SA[iv[k]] = k·d` (and `iv[k] < n`). -/
theorem isaBuild_getD (d n : Nat) (SA : List Nat) (hd : 1 ≤ d)
    (hperm : List.Perm SA (List.range n)) (k : Nat) (hk : k * d < n) :
    SA.getD ((isaBuild d SA).iv.getD k 0) 0 = k * d
    ∧ (isaBuild d SA).iv.getD k 0 < n := by
  have hn : SA.length = n := perm_length hperm
  obtain ⟨i0, hi0, hsa0⟩ := perm_exists_index hperm hk
  have hsplit : List.range n = List.range' 0 i0 ++ i0 :: List.range' (i0 + 1) (n - i0 - 1) := by
    have h1 : i0 :: List.range' (i0 + 1) (n - i0 - 1) = List.range' i0 (n - i0) := by
      have h2 := List.range'_succ i0 (n - i0 - 1) 1
      rw [show n - i0 - 1 + 1 = n - i0 by omega] at h2
      exact h2.symm
    rw [h1, List.range_eq_range']
    have happ := List.range'_append 0 i0 (n - i0) 1
    rw [show (0 + 1 * i0) = i0 by omega] at happ
    rw [show (n - i0) + i0 = n by omega] at happ
    exact happ.symm
  have hm : (SA.getD i0 0 % d == 0) = true := by
    rw [hsa0]
    simp [Nat.mul_mod_left]
  have hkd : SA.getD i0 0 / d = k := by
    rw [hsa0, Nat.mul_div_cancel _ (by omega)]
  have hklen : k < (List.replicate
      (if 1 ≤ n then (n - 1) / d + 1 else 0) 0).length := by
    rw [List.length_replicate, if_pos (by omega)]
    have : k ≤ (n - 1) / d := (Nat.le_div_iff_mul_le (by omega)).mpr (by omega)
    omega
  have hl2 : ∀ j ∈ List.range' (i0 + 1) (n - i0 - 1),
      ¬((SA.getD j 0 % d == 0) = true ∧ SA.getD j 0 / d = k) := by
    intro j hj hc
    have hjr : i0 + 1 ≤ j ∧ j < i0 + 1 + (n - i0 - 1) := List.mem_range'_1.mp hj
    have hjlt : j < SA.length := by omega
    have hv : SA.getD j 0 = k * d := by
      have hdvd : d ∣ SA.getD j 0 := by
        have := hc.1
        simp only [beq_iff_eq] at this
        exact (Nat.dvd_iff_mod_eq_zero).mpr this
      calc SA.getD j 0 = SA.getD j 0 / d * d := (Nat.div_mul_cancel hdvd).symm
        _ = k * d := by rw [hc.2]
    have : j = i0 := perm_getD_inj hperm hjlt hi0 (by rw [hv, hsa0])
    omega
  have hmain : (isaBuild d SA).iv.getD k 0 = i0 := by
    show ((List.range SA.length).foldl
        (fun iv i2 =>
          if SA.getD i2 0 % d == 0 then iv.set (SA.getD i2 0 / d) i2 else iv)
        (List.replicate (if 1 <= SA.length then (SA.length - 1) / d + 1 else 0) 0)).getD k 0
      = i0
    rw [hn, hsplit]
    exact isaFold_last_writer d SA k _ _ i0 _ hm hkd hklen hl2
  rw [hmain]
  exact ⟨hsa0, by omega⟩

/-! ## The text-order pair: inverse permutation and select -/

theorem textOrder_samples_nodup {d n : Nat} {SA : List Nat} (hd : 1 ≤ d)
    (hperm : List.Perm SA (List.range n)) :
    (textOrderBuild d SA).samples.Nodup := by
  rw [textOrderBuild_samples hd hperm]
  unfold textOrderRaw
  have hnd : SA.Nodup := hperm.nodup_iff.mpr (List.nodup_range n)
  refine List.Nodup.map_on ?_ (hnd.filter _)
  intro x hx y hy hxy
  have hdx : d ∣ x := by
    have := List.of_mem_filter hx
    simp only [beq_iff_eq] at this
    exact (Nat.dvd_iff_mod_eq_zero).mpr this
  have hdy : d ∣ y := by
    have := List.of_mem_filter hy
    simp only [beq_iff_eq] at this
    exact (Nat.dvd_iff_mod_eq_zero).mpr this
  calc x = x / d * d := (Nat.div_mul_cancel hdx).symm
    _ = y / d * d := by rw [hxy]
    _ = y := Nat.div_mul_cancel hdy

/-- The matched-pair identity of `_text_order_sampling` with
`_text_order_isa_sampling_support`: the select of the inverse
permutation entry of `k` lands at the SA index of text position `k·d`. -/
theorem textOrder_isa_identity (d n : Nat) (SA : List Nat) (hd : 1 ≤ d)
    (hperm : List.Perm SA (List.range n)) (k : Nat) (hk : k * d < n) :
    SA.getD (select1 (textOrderBuild d SA).marked
        (ipInv (textOrderBuild d SA).samples k + 1)) 0 = k * d
    ∧ select1 (textOrderBuild d SA).marked
        (ipInv (textOrderBuild d SA).samples k + 1) < n := by
  have hn : SA.length = n := perm_length hperm
  obtain ⟨i0, hi0, hsa0⟩ := perm_exists_index hperm hk
  have hm0 : (SA.getD i0 0 % d == 0) = true := by
    rw [hsa0]
    simp [Nat.mul_mod_left]
  have hmarked : (textOrderBuild d SA).marked.getD i0 false = true := by
    rw [textOrder_marked_getD hi0]
    exact hm0
  have hmlen : (textOrderBuild d SA).marked.length = SA.length := by
    show (SA.map _).length = _
    rw [List.length_map]
  have hsamp : (textOrderBuild d SA).samples[rank1 (textOrderBuild d SA).marked i0]?
      = some k := by
    rw [textOrderBuild_samples hd hperm, textOrder_rank]
    unfold textOrderRaw
    rw [List.getElem?_map, filter_getElem?_countP _ SA i0 hi0 hm0, hsa0]
    show some (k * d / d) = some k
    rw [Nat.mul_div_cancel _ (by omega)]
  have hip : ipInv (textOrderBuild d SA).samples k
      = rank1 (textOrderBuild d SA).marked i0 :=
    findIdx_beq_of_nodup _ _ _ (textOrder_samples_nodup hd hperm) hsamp
  have hsel : select1 (textOrderBuild d SA).marked
      (rank1 (textOrderBuild d SA).marked i0 + 1) = i0 :=
    select1_rank1 _ i0 (by omega) hmarked
  rw [hip, hsel]
  exact ⟨hsa0, by omega⟩

/-! ## The fuzzy build: block invariants -/

theorem fuzzyScanStep_fst (ISA : List Nat) (minPrev : Nat)
    (st : Nat × Option Nat) (j : Nat) :
    (fuzzyScanStep ISA minPrev st j).1
      = if isaAt ISA j < isaAt ISA st.1 then j else st.1 := rfl

theorem fuzzyScanStep_snd (ISA : List Nat) (minPrev : Nat)
    (st : Nat × Option Nat) (j : Nat) :
    (fuzzyScanStep ISA minPrev st j).2
      = if minPrev ≤ isaAt ISA j then
          (match st.2 with
            | none => some j
            | some c => if isaAt ISA j < isaAt ISA c then some j else some c)
        else st.2 := rfl

/-- The inner scan of a block stays inside the block. -/
theorem fuzzyBlockScan_mem (ISA : List Nat) (d minPrev i : Nat)
    (hd : 1 ≤ d) (hi : i < ISA.length) :
    (i ≤ (fuzzyBlockScan ISA d minPrev i).1
      ∧ (fuzzyBlockScan ISA d minPrev i).1 < i + min d (ISA.length - i))
    ∧ (∀ c, (fuzzyBlockScan ISA d minPrev i).2 = some c →
        i ≤ c ∧ c < i + min d (ISA.length - i)) := by
  unfold fuzzyBlockScan
  refine List.foldlRecOn (motive := fun st : Nat × Option Nat =>
      (i ≤ st.1 ∧ st.1 < i + min d (ISA.length - i))
      ∧ (∀ c, st.2 = some c → i ≤ c ∧ c < i + min d (ISA.length - i)))
    _ _ _ ⟨⟨Nat.le_refl i, by omega⟩, ?_⟩ ?_
  · intro c hc
    by_cases hge : minPrev ≤ isaAt ISA i
    · rw [if_pos hge] at hc
      obtain rfl : i = c := Option.some_inj.mp hc
      exact ⟨Nat.le_refl i, by omega⟩
    · rw [if_neg hge] at hc
      exact Option.noConfusion hc
  · intro st hst j hj
    have hjb : i + 1 ≤ j ∧ j < i + 1 + (min d (ISA.length - i) - 1) :=
      List.mem_range'_1.mp hj
    constructor
    · rw [fuzzyScanStep_fst]
      by_cases hlt : isaAt ISA j < isaAt ISA st.1
      · rw [if_pos hlt]
        exact ⟨by omega, by omega⟩
      · rw [if_neg hlt]
        exact hst.1
    · intro c hc
      rw [fuzzyScanStep_snd] at hc
      by_cases hge : minPrev ≤ isaAt ISA j
      · rw [if_pos hge] at hc
        cases hst2 : st.2 with
        | none =>
          rw [hst2] at hc
          obtain rfl : j = c := Option.some_inj.mp hc
          exact ⟨by omega, by omega⟩
        | some c0 =>
          rw [hst2] at hc
          simp only [] at hc
          by_cases hlt : isaAt ISA j < isaAt ISA c0
          · rw [if_pos hlt] at hc
            obtain rfl : j = c := Option.some_inj.mp hc
            exact ⟨by omega, by omega⟩
          · rw [if_neg hlt] at hc
            obtain rfl : c0 = c := Option.some_inj.mp hc
            exact hst.2 c0 hst2
      · rw [if_neg hge] at hc
        exact hst.2 c hc

/-- Any candidate produced by the inner scan has ISA value at least
`min_prev_val`. -/
theorem fuzzyBlockScan_cnd_ge (ISA : List Nat) (d minPrev i : Nat) :
    ∀ c, (fuzzyBlockScan ISA d minPrev i).2 = some c →
      minPrev ≤ isaAt ISA c := by
  unfold fuzzyBlockScan
  refine List.foldlRecOn (motive := fun st : Nat × Option Nat =>
      ∀ c, st.2 = some c → minPrev ≤ isaAt ISA c) _ _ _ ?_ ?_
  · intro c hc
    by_cases hge : minPrev ≤ isaAt ISA i
    · rw [if_pos hge] at hc
      obtain rfl : i = c := Option.some_inj.mp hc
      exact hge
    · rw [if_neg hge] at hc
      exact Option.noConfusion hc
  · intro st hst j _
    intro c hc
    rw [fuzzyScanStep_snd] at hc
    by_cases hge : minPrev ≤ isaAt ISA j
    · rw [if_pos hge] at hc
      cases hst2 : st.2 with
      | none =>
        rw [hst2] at hc
        obtain rfl : j = c := Option.some_inj.mp hc
        exact hge
      | some c0 =>
        rw [hst2] at hc
        simp only [] at hc
        by_cases hlt : isaAt ISA j < isaAt ISA c0
        · rw [if_pos hlt] at hc
          obtain rfl : j = c := Option.some_inj.mp hc
          exact hge
        · rw [if_neg hlt] at hc
          obtain rfl : c0 = c := Option.some_inj.mp hc
          exact hst c0 hst2
    · rw [if_neg hge] at hc
      exact hst c hc

/-- The chosen position of a block lies inside the block. -/
theorem fuzzyBlockChoice_mem (ISA : List Nat) (d minPrev i : Nat)
    (hd : 1 ≤ d) (hi : i < ISA.length) :
    i ≤ (fuzzyBlockChoice ISA d minPrev i).1
    ∧ (fuzzyBlockChoice ISA d minPrev i).1 < i + min d (ISA.length - i) := by
  obtain ⟨hmin, hcnd⟩ := fuzzyBlockScan_mem ISA d minPrev i hd hi
  unfold fuzzyBlockChoice
  rcases hE : fuzzyBlockScan ISA d minPrev i with ⟨pm, cnd⟩
  cases cnd with
  | none =>
    show i ≤ pm ∧ pm < _
    rw [hE] at hmin
    exact hmin
  | some c =>
    show i ≤ c ∧ c < _
    rw [hE] at hcnd
    exact hcnd c rfl

/-- A block whose candidate is non-empty extends the run: its chosen
ISA value is at least `min_prev_val`. -/
theorem fuzzyBlockChoice_nonempty_ge (ISA : List Nat) (d minPrev i : Nat) :
    (fuzzyBlockChoice ISA d minPrev i).2 = false →
    minPrev ≤ isaAt ISA (fuzzyBlockChoice ISA d minPrev i).1 := by
  have hcnd := fuzzyBlockScan_cnd_ge ISA d minPrev i
  unfold fuzzyBlockChoice
  rcases hE : fuzzyBlockScan ISA d minPrev i with ⟨pm, cnd⟩
  cases cnd with
  | none => intro hfalse; exact Bool.noConfusion hfalse
  | some c =>
    intro _
    show minPrev ≤ isaAt ISA c
    rw [hE] at hcnd
    exact hcnd c rfl

/-! ## The fuzzy build: the outer loop -/

theorem fuzzyGo_cons_fst (ISA : List Nat) (d mp s : Nat) (rest : List Nat) :
    (fuzzyGo ISA d mp (s :: rest)).1
      = fuzzyBlockChoice ISA d mp s
          :: (fuzzyGo ISA d (isaAt ISA (fuzzyBlockChoice ISA d mp s).1) rest).1 := rfl

theorem fuzzyGo_cons_snd (ISA : List Nat) (d mp s : Nat) (rest : List Nat) :
    (fuzzyGo ISA d mp (s :: rest)).2
      = (if (fuzzyBlockChoice ISA d mp s).2 then 1 else 0)
          + (fuzzyGo ISA d (isaAt ISA (fuzzyBlockChoice ISA d mp s).1) rest).2 := rfl

theorem fuzzyGo_length (ISA : List Nat) (d : Nat) :
    ∀ (starts : List Nat) (mp : Nat),
      (fuzzyGo ISA d mp starts).1.length = starts.length := by
  intro starts
  induction starts with
  | nil => intro mp; rfl
  | cons s rest ih =>
    intro mp
    rw [fuzzyGo_cons_fst, List.length_cons, ih, List.length_cons]

/-- The total of the run-counter increments is the number of
empty-candidate blocks. -/
theorem fuzzyGo_runs_eq (ISA : List Nat) (d : Nat) :
    ∀ (starts : List Nat) (mp : Nat),
      (fuzzyGo ISA d mp starts).2
        = ((fuzzyGo ISA d mp starts).1.filter (fun cb => cb.2)).length := by
  intro starts
  induction starts with
  | nil => intro mp; rfl
  | cons s rest ih =>
    intro mp
    rw [fuzzyGo_cons_fst, fuzzyGo_cons_snd, List.filter_cons]
    by_cases he : (fuzzyBlockChoice ISA d mp s).2 = true
    · rw [if_pos he, if_pos he, List.length_cons, ih]
      omega
    · rw [if_neg he, if_neg he, ih]
      omega

/-- Each chosen position lies in its own block. -/
theorem fuzzyGo_getD_mem (ISA : List Nat) (d : Nat) (hd : 1 ≤ d) :
    ∀ (starts : List Nat) (mp : Nat) (b : Nat), b < starts.length →
      (∀ s2 ∈ starts, s2 < ISA.length) →
      starts.getD b 0 ≤ ((fuzzyGo ISA d mp starts).1.getD b (0, false)).1
      ∧ ((fuzzyGo ISA d mp starts).1.getD b (0, false)).1
          < starts.getD b 0 + min d (ISA.length - starts.getD b 0) := by
  intro starts
  induction starts with
  | nil => intro mp b hb _; simp at hb
  | cons s rest ih =>
    intro mp b hb hvalid
    rw [fuzzyGo_cons_fst]
    cases b with
    | zero =>
      rw [List.getD_cons_zero, List.getD_cons_zero]
      exact fuzzyBlockChoice_mem ISA d mp s hd (hvalid s (by simp))
    | succ b2 =>
      rw [List.getD_cons_succ, List.getD_cons_succ]
      exact ih _ b2 (by simpa using hb) (fun s2 hs2 => hvalid s2 (by simp [hs2]))

/-- Between run boundaries the chosen ISA values do not decrease. -/
theorem fuzzyGo_mono (ISA : List Nat) (d : Nat) :
    ∀ (starts : List Nat) (mp : Nat) (b : Nat), b + 1 < starts.length →
      (((fuzzyGo ISA d mp starts).1.getD (b + 1) (0, false)).2 = false) →
      isaAt ISA (((fuzzyGo ISA d mp starts).1.getD b (0, false)).1)
        ≤ isaAt ISA (((fuzzyGo ISA d mp starts).1.getD (b + 1) (0, false)).1) := by
  intro starts
  induction starts with
  | nil => intro mp b hb _; simp at hb
  | cons s rest ih =>
    intro mp b hb hflag
    rw [fuzzyGo_cons_fst] at hflag ⊢
    cases b with
    | zero =>
      cases rest with
      | nil => simp at hb
      | cons s2 rest2 =>
        rw [List.getD_cons_succ] at hflag
        rw [List.getD_cons_succ, List.getD_cons_zero]
        rw [fuzzyGo_cons_fst, List.getD_cons_zero] at hflag ⊢
        exact fuzzyBlockChoice_nonempty_ge ISA d _ s2 hflag
    | succ b2 =>
      rw [List.getD_cons_succ] at hflag
      rw [List.getD_cons_succ, List.getD_cons_succ]
      exact ih _ b2 (by simpa using hb) hflag

/-! ## The fuzzy build: block starts and positions -/

theorem mul_lt_of_lt_ceilDiv {b d n : Nat} (hd : 1 ≤ d)
    (hb : b < ceilDiv n d) : b * d < n := by
  have hn1 : 1 ≤ n := by
    by_contra h
    have hn0 : n = 0 := by omega
    subst hn0
    have : ceilDiv 0 d = 0 := by
      unfold ceilDiv
      rw [Nat.div_eq_of_lt (by omega)]
    omega
  have h2 := ceilDiv_eq_pred_div_succ hd hn1
  have h3 : b ≤ (n - 1) / d := by omega
  have h4 := (Nat.le_div_iff_mul_le (by omega : 0 < d)).mp h3
  omega

theorem blockStarts_length (d n : Nat) :
    (blockStarts d n).length = ceilDiv n d := by
  unfold blockStarts
  rw [List.length_map, List.length_range]

theorem blockStarts_getD (d n b : Nat) (hb : b < ceilDiv n d) :
    (blockStarts d n).getD b 0 = b * d :=
  getD_map_range _ hb 0

theorem blockStarts_lt (d n : Nat) (hd : 1 ≤ d) :
    ∀ s ∈ blockStarts d n, s < n := by
  intro s hs
  unfold blockStarts at hs
  obtain ⟨b, hb, rfl⟩ := List.mem_map.mp hs
  exact mul_lt_of_lt_ceilDiv hd (List.mem_range.mp hb)

theorem getD_eq_getElem {α : Type} (l : List α) (i : Nat) (hi : i < l.length)
    (d0 : α) : l.getD i d0 = l[i] := by
  rw [List.getD_eq_getElem?_getD, List.getElem?_eq_getElem hi]
  rfl

theorem fuzzyPositions_length (d : Nat) (ISA : List Nat) :
    (fuzzyPositions d ISA).length = ceilDiv ISA.length d := by
  unfold fuzzyPositions fuzzyTrace
  rw [List.length_map, fuzzyGo_length, blockStarts_length]

/-- The chosen position of block `b` lies in
`[b·d, b·d + min(d, n − b·d))`. -/
theorem fuzzyPositions_getD_mem (d : Nat) (ISA : List Nat) (hd : 1 ≤ d)
    (b : Nat) (hb : b < ceilDiv ISA.length d) :
    b * d ≤ (fuzzyPositions d ISA).getD b 0
    ∧ (fuzzyPositions d ISA).getD b 0
        < b * d + min d (ISA.length - b * d) := by
  have hlen : (fuzzyGo ISA d 0 (blockStarts d ISA.length)).1.length
      = ceilDiv ISA.length d := by
    rw [fuzzyGo_length, blockStarts_length]
  have hgo := fuzzyGo_getD_mem ISA d hd (blockStarts d ISA.length) 0 b
    (by rw [blockStarts_length]; exact hb) (blockStarts_lt d ISA.length hd)
  rw [blockStarts_getD d ISA.length b hb] at hgo
  have hmap : (fuzzyPositions d ISA).getD b 0
      = ((fuzzyGo ISA d 0 (blockStarts d ISA.length)).1.getD b (0, false)).1 := by
    unfold fuzzyPositions fuzzyTrace
    rw [getD_map_of_lt Prod.fst _ b (by rw [hlen]; exact hb) (0, false) 0]
  rw [hmap]
  exact hgo

theorem fuzzyPositions_lt (d : Nat) (ISA : List Nat) (hd : 1 ≤ d)
    (b : Nat) (hb : b < ceilDiv ISA.length d) :
    (fuzzyPositions d ISA).getD b 0 < ISA.length := by
  have h := fuzzyPositions_getD_mem d ISA hd b hb
  have hbd := mul_lt_of_lt_ceilDiv hd hb
  have hmin : min d (ISA.length - b * d) ≤ ISA.length - b * d :=
    Nat.min_le_right _ _
  omega

theorem fuzzyPositions_pairwise (d : Nat) (ISA : List Nat) (hd : 1 ≤ d) :
    List.Pairwise (fun x y => x < y) (fuzzyPositions d ISA) := by
  rw [List.pairwise_iff_getElem]
  intro i j hi hj hij
  have hlen := fuzzyPositions_length d ISA
  have h1 := fuzzyPositions_getD_mem d ISA hd i (by omega)
  have h2 := fuzzyPositions_getD_mem d ISA hd j (by omega)
  rw [getD_eq_getElem _ i hi] at h1
  rw [getD_eq_getElem _ j hj] at h2
  have hmin : min d (ISA.length - i * d) ≤ d := Nat.min_le_left _ _
  have hstep : (i + 1) * d ≤ j * d := Nat.mul_le_mul_right d (by omega)
  have hid : i * d + d = (i + 1) * d := by ring
  omega

theorem fuzzyPositions_nodup (d : Nat) (ISA : List Nat) (hd : 1 ≤ d) :
    (fuzzyPositions d ISA).Nodup :=
  (fuzzyPositions_pairwise d ISA hd).imp (fun h => Nat.ne_of_lt h)

theorem fuzzyPositions_mem_lt (d : Nat) (ISA : List Nat) (hd : 1 ≤ d) :
    ∀ x ∈ fuzzyPositions d ISA, x < ISA.length := by
  intro x hx
  obtain ⟨b, hb, hbx⟩ := List.mem_iff_getElem.mp hx
  have hlen := fuzzyPositions_length d ISA
  have := fuzzyPositions_lt d ISA hd b (by omega)
  rw [getD_eq_getElem _ b hb] at this
  omega

/-! ## The fuzzy build: marks and the inverse permutation -/

theorem countP_range_contains {ps : List Nat} {n : Nat} (hnd : ps.Nodup)
    (hlt : ∀ x ∈ ps, x < n) :
    (List.range n).countP (fun i => ps.contains i) = ps.length := by
  have hperm2 : List.Perm ((List.range n).filter (fun i => ps.contains i)) ps := by
    rw [List.perm_ext_iff_of_nodup ((List.nodup_range n).filter _) hnd]
    intro a
    constructor
    · intro ha
      exact List.elem_iff.mp (List.mem_filter.mp ha).2
    · intro ha
      exact List.mem_filter.mpr
        ⟨List.mem_range.mpr (hlt a ha), List.elem_iff.mpr ha⟩
  rw [List.countP_eq_length_filter]
  exact hperm2.length_eq

theorem filter_range_contains_eq {ps : List Nat} {n : Nat}
    (hsort : List.Pairwise (fun x y => x < y) ps)
    (hlt : ∀ x ∈ ps, x < n) :
    (List.range n).filter (fun i => ps.contains i) = ps := by
  haveI : IsAntisymm Nat (fun x y => x < y) := ⟨fun a b h1 h2 => by omega⟩
  have hnd : ps.Nodup := hsort.imp (fun h => Nat.ne_of_lt h)
  have hperm2 : List.Perm ((List.range n).filter (fun i => ps.contains i)) ps := by
    rw [List.perm_ext_iff_of_nodup ((List.nodup_range n).filter _) hnd]
    intro a
    constructor
    · intro ha
      exact List.elem_iff.mp (List.mem_filter.mp ha).2
    · intro ha
      exact List.mem_filter.mpr
        ⟨List.mem_range.mpr (hlt a ha), List.elem_iff.mpr ha⟩
  exact List.eq_of_perm_of_sorted hperm2
    (List.Pairwise.sublist (List.filter_sublist _) (List.pairwise_lt_range n))
    hsort

theorem fuzzyMarkedIsa_length (d : Nat) (ISA : List Nat) :
    (fuzzyMarkedIsa d ISA).length = ISA.length := by
  unfold fuzzyMarkedIsa
  rw [List.length_map, List.length_range]

theorem fuzzyMarkedIsa_getD (d : Nat) (ISA : List Nat) {i : Nat}
    (hi : i < ISA.length) :
    (fuzzyMarkedIsa d ISA).getD i false = (fuzzyPositions d ISA).contains i :=
  getD_map_range _ hi false

theorem fuzzyMarkedIsa_popcount (d : Nat) (ISA : List Nat) (hd : 1 ≤ d) :
    popcount (fuzzyMarkedIsa d ISA) = ceilDiv ISA.length d := by
  unfold fuzzyMarkedIsa
  rw [popcount_map_range,
    countP_range_contains (fuzzyPositions_nodup d ISA hd)
      (fuzzyPositions_mem_lt d ISA hd),
    fuzzyPositions_length]

theorem fuzzyMarkedIsa_onesList (d : Nat) (ISA : List Nat) (hd : 1 ≤ d) :
    onesList (fuzzyMarkedIsa d ISA) = fuzzyPositions d ISA := by
  unfold onesList
  rw [fuzzyMarkedIsa_length]
  have hcong : List.filter (fun i => (fuzzyMarkedIsa d ISA).getD i false)
        (List.range ISA.length)
      = List.filter (fun i => (fuzzyPositions d ISA).contains i)
        (List.range ISA.length) :=
    List.filter_congr
      (fun i hi => fuzzyMarkedIsa_getD d ISA (List.mem_range.mp hi))
  rw [hcong,
    filter_range_contains_eq (fuzzyPositions_pairwise d ISA hd)
      (fuzzyPositions_mem_lt d ISA hd)]

/-- `select_marked_isa(b+1)` is the chosen position of block `b`. -/
theorem fuzzy_select_marked_isa (d : Nat) (ISA : List Nat) (hd : 1 ≤ d)
    (b : Nat) :
    select1 (fuzzyMarkedIsa d ISA) (b + 1) = (fuzzyPositions d ISA).getD b 0 := by
  unfold select1
  rw [fuzzyMarkedIsa_onesList d ISA hd, Nat.add_sub_cancel]

theorem fuzzyInvRaw_length (d : Nat) (ISA : List Nat) :
    (fuzzyInvRaw d ISA).length = ceilDiv ISA.length d := by
  unfold fuzzyInvRaw
  rw [List.length_map, fuzzyPositions_length]

theorem fuzzyInvRaw_getD (d : Nat) (ISA : List Nat) {b : Nat}
    (hb : b < ceilDiv ISA.length d) :
    (fuzzyInvRaw d ISA).getD b 0
      = isaAt ISA ((fuzzyPositions d ISA).getD b 0) := by
  unfold fuzzyInvRaw
  rw [getD_map_of_lt _ _ b (by rw [fuzzyPositions_length]; exact hb) 0 0]

theorem fuzzyInvRaw_mem_lt {d n : Nat} {ISA : List Nat} (hd : 1 ≤ d)
    (hperm : List.Perm ISA (List.range n)) :
    ∀ v ∈ fuzzyInvRaw d ISA, v < n := by
  intro v hv
  obtain ⟨p, hp, rfl⟩ := List.mem_map.mp hv
  exact perm_getD_lt hperm (fuzzyPositions_mem_lt d ISA hd p hp)

theorem fuzzyInvRaw_nodup {d n : Nat} {ISA : List Nat} (hd : 1 ≤ d)
    (hperm : List.Perm ISA (List.range n)) :
    (fuzzyInvRaw d ISA).Nodup := by
  refine List.Nodup.map_on ?_ (fuzzyPositions_nodup d ISA hd)
  intro x hx y hy hxy
  exact perm_getD_inj hperm (fuzzyPositions_mem_lt d ISA hd x hx)
    (fuzzyPositions_mem_lt d ISA hd y hy) hxy

theorem fuzzyMarkedSa_length (d : Nat) (ISA : List Nat) :
    (fuzzyMarkedSa d ISA).length = ISA.length := by
  unfold fuzzyMarkedSa
  rw [List.length_map, List.length_range]

theorem fuzzyMarkedSa_getD (d : Nat) (ISA : List Nat) {v : Nat}
    (hv : v < ISA.length) :
    (fuzzyMarkedSa d ISA).getD v false = (fuzzyInvRaw d ISA).contains v :=
  getD_map_range _ hv false

theorem fuzzyMarkedSa_popcount {d n : Nat} {ISA : List Nat} (hd : 1 ≤ d)
    (hperm : List.Perm ISA (List.range n)) :
    popcount (fuzzyMarkedSa d ISA) = ceilDiv ISA.length d := by
  have hn : ISA.length = n := perm_length hperm
  unfold fuzzyMarkedSa
  rw [popcount_map_range,
    countP_range_contains (fuzzyInvRaw_nodup hd hperm)
      (fun v hv => by rw [hn]; exact fuzzyInvRaw_mem_lt hd hperm v hv),
    fuzzyInvRaw_length]

theorem fuzzyMarkedSa_getD_mem {d n : Nat} {ISA : List Nat} (hd : 1 ≤ d)
    (hperm : List.Perm ISA (List.range n)) {v : Nat}
    (hv : v ∈ fuzzyInvRaw d ISA) :
    (fuzzyMarkedSa d ISA).getD v false = true := by
  have hn : ISA.length = n := perm_length hperm
  rw [fuzzyMarkedSa_getD d ISA (by rw [hn]; exact fuzzyInvRaw_mem_lt hd hperm v hv)]
  exact List.elem_iff.mpr hv

theorem fuzzyInvPerm_length (d : Nat) (ISA : List Nat) :
    (fuzzyInvPerm d ISA).length = ceilDiv ISA.length d := by
  unfold fuzzyInvPerm
  rw [List.length_map, fuzzyInvRaw_length]

theorem fuzzyInvPerm_getD (d : Nat) (ISA : List Nat) {b : Nat}
    (hb : b < ceilDiv ISA.length d) :
    (fuzzyInvPerm d ISA).getD b 0
      = rank1 (fuzzyMarkedSa d ISA) ((fuzzyInvRaw d ISA).getD b 0) := by
  unfold fuzzyInvPerm
  rw [getD_map_of_lt _ _ b (by rw [fuzzyInvRaw_length]; exact hb) 0 0]

/-- The condensed inverse permutation is a permutation of
`[0, ⌈n/d⌉)`. -/
theorem fuzzyInvPerm_perm {d n : Nat} {ISA : List Nat} (hd : 1 ≤ d)
    (hperm : List.Perm ISA (List.range n)) :
    List.Perm (fuzzyInvPerm d ISA) (List.range (ceilDiv ISA.length d)) := by
  have hn : ISA.length = n := perm_length hperm
  have hlt : ∀ v ∈ fuzzyInvRaw d ISA, v < ISA.length := by
    intro v hv
    rw [hn]
    exact fuzzyInvRaw_mem_lt hd hperm v hv
  have hmarked : ∀ v ∈ fuzzyInvRaw d ISA,
      (fuzzyMarkedSa d ISA).getD v false = true := fun v hv =>
    fuzzyMarkedSa_getD_mem hd hperm hv
  have hbvlen : (fuzzyMarkedSa d ISA).length = ISA.length :=
    fuzzyMarkedSa_length d ISA
  refine perm_range_of_nodup_lt ?_ ?_ (fuzzyInvPerm_length d ISA)
  · refine List.Nodup.map_on ?_ (fuzzyInvRaw_nodup hd hperm)
    intro x hx y hy hxy
    rcases Nat.lt_trichotomy x y with hlt2 | heq | hgt
    · have := rank1_strict_mono_marked (fuzzyMarkedSa d ISA) hlt2
        (by rw [hbvlen]; exact Nat.le_of_lt (hlt y hy)) (hmarked x hx)
      omega
    · exact heq
    · have := rank1_strict_mono_marked (fuzzyMarkedSa d ISA) hgt
        (by rw [hbvlen]; exact Nat.le_of_lt (hlt x hx)) (hmarked y hy)
      omega
  · intro r hr
    obtain ⟨v, hv, rfl⟩ := List.mem_map.mp hr
    have := rank1_lt_popcount (fuzzyMarkedSa d ISA) v
      (by rw [hbvlen]; exact hlt v hv) (hmarked v hv)
    rw [fuzzyMarkedSa_popcount hd hperm] at this
    exact this

/-- C3.  After a fuzzy build with stride `d ≥ 1` from an ISA that is a
permutation of `[0, n)` with `n ≥ 1`: `marked_sa` and `marked_isa` each
hold exactly `B = ⌈n/d⌉` ones, and the rank-compressed `inv_perm` is a
permutation of `[0, B)`. -/
theorem fuzzy_invariants (d n : Nat) (ISA : List Nat) (hd : 1 ≤ d)
    (hn1 : 1 ≤ n) (hperm : List.Perm ISA (List.range n)) :
    popcount (fuzzyBuild d ISA).marked_sa = ceilDiv n d
    ∧ popcount (fuzzyBuild d ISA).marked_isa = ceilDiv n d
    ∧ List.Perm (fuzzyBuild d ISA).inv_perm (List.range (ceilDiv n d)) := by
  have hn : ISA.length = n := perm_length hperm
  refine ⟨?_, ?_, ?_⟩
  · show popcount (fuzzyMarkedSa d ISA) = _
    rw [fuzzyMarkedSa_popcount hd hperm, hn]
  · show popcount (fuzzyMarkedIsa d ISA) = _
    rw [fuzzyMarkedIsa_popcount d ISA hd, hn]
  · show List.Perm (fuzzyInvPerm d ISA) _
    have h := fuzzyInvPerm_perm hd hperm
    rwa [hn] at h

/-- Witness for `fuzzy_invariants`: the ISA of the header example
(`T = ABCDEFABCDEF$`) with `d = 4`, where `B = 4`. -/
theorem fuzzy_invariants_witness :
    (1 ≤ 4 ∧ 1 ≤ 13
      ∧ List.Perm [2, 4, 6, 8, 10, 12, 1, 3, 5, 7, 9, 11, 0] (List.range 13))
    ∧ (popcount (fuzzyBuild 4 [2, 4, 6, 8, 10, 12, 1, 3, 5, 7, 9, 11, 0]).marked_sa
        = ceilDiv 13 4
    ∧ popcount (fuzzyBuild 4 [2, 4, 6, 8, 10, 12, 1, 3, 5, 7, 9, 11, 0]).marked_isa
        = ceilDiv 13 4
    ∧ List.Perm (fuzzyBuild 4 [2, 4, 6, 8, 10, 12, 1, 3, 5, 7, 9, 11, 0]).inv_perm
        (List.range (ceilDiv 13 4))) :=
  ⟨⟨by decide, by decide, by decide⟩,
    fuzzy_invariants 4 13 [2, 4, 6, 8, 10, 12, 1, 3, 5, 7, 9, 11, 0]
      (by decide) (by decide) (by decide)⟩

/-! ## One mark per block (C9) -/

theorem countP_beq_of_nodup {l : List Nat} (hnd : l.Nodup) {a : Nat}
    (ha : a ∈ l) : l.countP (fun i => i == a) = 1 := by
  induction l with
  | nil => simp at ha
  | cons x t ih =>
    rw [List.countP_cons]
    rcases List.mem_cons.mp ha with rfl | hat
    · have hnot : t.countP (fun i => i == a) = 0 := by
        rw [List.countP_eq_zero]
        intro b hb hba
        have : b = a := by simpa using hba
        exact (List.nodup_cons.mp hnd).1 (this ▸ hb)
      rw [hnot]
      simp
    · have hxa : ¬ ((x == a) = true) := by
        have : x ≠ a := fun h => (List.nodup_cons.mp hnd).1 (h ▸ hat)
        simpa using this
      rw [ih (List.nodup_cons.mp hnd).2 hat]
      simp [hxa]

/-- The chosen position of block `b` is the only member of
`fuzzyPositions` inside block `b`. -/
theorem fuzzyPositions_mem_block_iff (d : Nat) (ISA : List Nat) (hd : 1 ≤ d)
    (b : Nat) (hb : b < ceilDiv ISA.length d) (i : Nat)
    (hge : b * d ≤ i) (hlt : i < b * d + min d (ISA.length - b * d)) :
    (i ∈ fuzzyPositions d ISA ↔ i = (fuzzyPositions d ISA).getD b 0) := by
  constructor
  · intro hmem
    obtain ⟨b2, hb2, hbeq⟩ := List.mem_iff_getElem.mp hmem
    have hlen := fuzzyPositions_length d ISA
    have hmem2 := fuzzyPositions_getD_mem d ISA hd b2 (by omega)
    rw [getD_eq_getElem _ b2 hb2, hbeq] at hmem2
    have hbb : b2 = b := by
      by_contra hne
      rcases Nat.lt_or_ge b2 b with hltb | hgeb
      · have h1 : b2 * d + min d (ISA.length - b2 * d) ≤ (b2 + 1) * d := by
          have : min d (ISA.length - b2 * d) ≤ d := Nat.min_le_left _ _
          have : b2 * d + d = (b2 + 1) * d := by ring
          omega
        have h2 : (b2 + 1) * d ≤ b * d := Nat.mul_le_mul_right d (by omega)
        omega
      · have hltb : b < b2 := by omega
        have h1 : b * d + min d (ISA.length - b * d) ≤ (b + 1) * d := by
          have : min d (ISA.length - b * d) ≤ d := Nat.min_le_left _ _
          have : b * d + d = (b + 1) * d := by ring
          omega
        have h2 : (b + 1) * d ≤ b2 * d := Nat.mul_le_mul_right d (by omega)
        omega
    subst hbb
    rw [getD_eq_getElem _ b2 hb2, hbeq]
  · intro heq
    have hlenb : b < (fuzzyPositions d ISA).length := by
      rw [fuzzyPositions_length]
      exact hb
    rw [heq, getD_eq_getElem _ b hlenb]
    exact List.getElem_mem hlenb

/-- C9.  Exactly one `marked_isa` bit is set in each block
`[b·d, min((b+1)·d, n))`; the set positions are strictly increasing
block by block, and `select1(marked_isa, b+1)` is the position chosen
for block `b`. -/
theorem fuzzy_one_mark_per_block (d n : Nat) (ISA : List Nat) (hd : 1 ≤ d)
    (hn1 : 1 ≤ n) (hperm : List.Perm ISA (List.range n)) :
    (∀ b, b < ceilDiv n d →
      (List.range' (b * d) (min ((b + 1) * d) n - b * d)).countP
          (fun i => (fuzzyBuild d ISA).marked_isa.getD i false) = 1)
    ∧ (∀ b, b + 1 < ceilDiv n d →
        select1 (fuzzyBuild d ISA).marked_isa (b + 1)
          < select1 (fuzzyBuild d ISA).marked_isa (b + 2))
    ∧ (∀ b, b < ceilDiv n d →
        select1 (fuzzyBuild d ISA).marked_isa (b + 1)
          = (fuzzyPositions d ISA).getD b 0) := by
  have hn : ISA.length = n := perm_length hperm
  have hsel : ∀ b, select1 (fuzzyBuild d ISA).marked_isa (b + 1)
      = (fuzzyPositions d ISA).getD b 0 := by
    intro b
    show select1 (fuzzyMarkedIsa d ISA) (b + 1) = _
    exact fuzzy_select_marked_isa d ISA hd b
  refine ⟨?_, ?_, fun b _ => hsel b⟩
  · intro b hb
    have hbI : b < ceilDiv ISA.length d := by rw [hn]; exact hb
    have hbd : b * d < n := mul_lt_of_lt_ceilDiv hd hb
    have hblock : min ((b + 1) * d) n - b * d = min d (ISA.length - b * d) := by
      rw [hn]
      have : (b + 1) * d = b * d + d := by ring
      omega
    rw [hblock]
    have hcong : (List.range' (b * d) (min d (ISA.length - b * d))).countP
          (fun i => (fuzzyBuild d ISA).marked_isa.getD i false)
        = (List.range' (b * d) (min d (ISA.length - b * d))).countP
          (fun i => i == (fuzzyPositions d ISA).getD b 0) := by
      refine List.countP_congr ?_
      intro i hi
      have hib := List.mem_range'_1.mp hi
      have hiltn : i < ISA.length := by
        have : min d (ISA.length - b * d) ≤ ISA.length - b * d :=
          Nat.min_le_right _ _
        omega
      show (fuzzyMarkedIsa d ISA).getD i false = true ↔ _
      rw [fuzzyMarkedIsa_getD d ISA hiltn]
      rw [List.elem_iff]
      rw [fuzzyPositions_mem_block_iff d ISA hd b hbI i hib.1 hib.2]
      simp
    rw [hcong]
    refine countP_beq_of_nodup (List.nodup_range' _ _) ?_
    have hmem := fuzzyPositions_getD_mem d ISA hd b hbI
    exact List.mem_range'_1.mpr ⟨hmem.1, hmem.2⟩
  · intro b hb
    rw [hsel b, show b + 2 = (b + 1) + 1 from rfl, hsel (b + 1)]
    have hlen := fuzzyPositions_length d ISA
    have h1 := fuzzyPositions_getD_mem d ISA hd b (by rw [hn]; omega)
    have h2 := fuzzyPositions_getD_mem d ISA hd (b + 1) (by rw [hn]; omega)
    have hmin : min d (ISA.length - b * d) ≤ d := Nat.min_le_left _ _
    have hstep : b * d + d = (b + 1) * d := by ring
    omega

/-- Witness for `fuzzy_one_mark_per_block` at the header example with
`d = 4`. -/
theorem fuzzy_one_mark_per_block_witness :
    (1 ≤ 4 ∧ 1 ≤ 13
      ∧ List.Perm [2, 4, 6, 8, 10, 12, 1, 3, 5, 7, 9, 11, 0] (List.range 13))
    ∧ ((∀ b, b < ceilDiv 13 4 →
      (List.range' (b * 4) (min ((b + 1) * 4) 13 - b * 4)).countP
          (fun i => (fuzzyBuild 4 [2, 4, 6, 8, 10, 12, 1, 3, 5, 7, 9, 11, 0]).marked_isa.getD i false) = 1)
    ∧ (∀ b, b + 1 < ceilDiv 13 4 →
        select1 (fuzzyBuild 4 [2, 4, 6, 8, 10, 12, 1, 3, 5, 7, 9, 11, 0]).marked_isa (b + 1)
          < select1 (fuzzyBuild 4 [2, 4, 6, 8, 10, 12, 1, 3, 5, 7, 9, 11, 0]).marked_isa (b + 2))
    ∧ (∀ b, b < ceilDiv 13 4 →
        select1 (fuzzyBuild 4 [2, 4, 6, 8, 10, 12, 1, 3, 5, 7, 9, 11, 0]).marked_isa (b + 1)
          = (fuzzyPositions 4 [2, 4, 6, 8, 10, 12, 1, 3, 5, 7, 9, 11, 0]).getD b 0)) :=
  ⟨⟨by decide, by decide, by decide⟩,
    fuzzy_one_mark_per_block 4 13 [2, 4, 6, 8, 10, 12, 1, 3, 5, 7, 9, 11, 0]
      (by decide) (by decide) (by decide)⟩

/-! ## Runs of the fuzzy build (C5) -/

/-- C5 (amended).  Between run boundaries the per-block `min_prev`
values (`= ISA[pos_cnd]`, recorded in the raw inverse permutation) are
non-decreasing, and the final run counter is `1 +` the number of
empty-candidate blocks (the counter starts at 1, line 348). -/
theorem fuzzy_runs_spec (d n : Nat) (ISA : List Nat) (hd : 1 ≤ d)
    (hperm : List.Perm ISA (List.range n)) :
    (∀ b, b + 1 < ceilDiv n d →
      ((fuzzyTrace d ISA).1.getD (b + 1) (0, false)).2 = false →
      (fuzzyInvRaw d ISA).getD b 0 ≤ (fuzzyInvRaw d ISA).getD (b + 1) 0)
    ∧ fuzzyRuns d ISA = 1 + fuzzyEmptyCount d ISA := by
  have hn : ISA.length = n := perm_length hperm
  constructor
  · intro b hb hflag
    have hbI : b + 1 < ceilDiv ISA.length d := by rw [hn]; exact hb
    have htlen : (fuzzyTrace d ISA).1.length = ceilDiv ISA.length d := by
      show (fuzzyGo ISA d 0 (blockStarts d ISA.length)).1.length = _
      rw [fuzzyGo_length, blockStarts_length]
    have hposD : ∀ b2, b2 < ceilDiv ISA.length d →
        (fuzzyPositions d ISA).getD b2 0
          = ((fuzzyTrace d ISA).1.getD b2 (0, false)).1 := by
      intro b2 hb2
      unfold fuzzyPositions
      rw [getD_map_of_lt Prod.fst _ b2 (by rw [htlen]; exact hb2) (0, false) 0]
    rw [fuzzyInvRaw_getD d ISA (by omega), fuzzyInvRaw_getD d ISA hbI,
      hposD b (by omega), hposD (b + 1) hbI]
    exact fuzzyGo_mono ISA d (blockStarts d ISA.length) 0 b
      (by rw [blockStarts_length]; exact hbI) hflag
  · show 1 + (fuzzyTrace d ISA).2 = 1 + _
    unfold fuzzyEmptyCount fuzzyTrace
    rw [fuzzyGo_runs_eq]

/-- Witness for `fuzzy_runs_spec` at the header example with `d = 4`
(the last block is a run boundary: `runs = 2`, one empty candidate). -/
theorem fuzzy_runs_spec_witness :
    (1 ≤ 4 ∧ List.Perm [2, 4, 6, 8, 10, 12, 1, 3, 5, 7, 9, 11, 0] (List.range 13))
    ∧ ((∀ b, b + 1 < ceilDiv 13 4 →
      ((fuzzyTrace 4 [2, 4, 6, 8, 10, 12, 1, 3, 5, 7, 9, 11, 0]).1.getD (b + 1) (0, false)).2 = false →
      (fuzzyInvRaw 4 [2, 4, 6, 8, 10, 12, 1, 3, 5, 7, 9, 11, 0]).getD b 0
        ≤ (fuzzyInvRaw 4 [2, 4, 6, 8, 10, 12, 1, 3, 5, 7, 9, 11, 0]).getD (b + 1) 0)
    ∧ fuzzyRuns 4 [2, 4, 6, 8, 10, 12, 1, 3, 5, 7, 9, 11, 0]
        = 1 + fuzzyEmptyCount 4 [2, 4, 6, 8, 10, 12, 1, 3, 5, 7, 9, 11, 0]) :=
  ⟨⟨by decide, by decide⟩,
    fuzzy_runs_spec 4 13 [2, 4, 6, 8, 10, 12, 1, 3, 5, 7, 9, 11, 0]
      (by decide) (by decide)⟩

/-- C5 as stated is off by one: the run counter starts at 1, so its
final value is `1 +` the number of empty-candidate blocks, not that
number itself.  At `d = 1`, `ISA = [0]` the counter ends at 1 while no
block had an empty candidate. -/
theorem fuzzy_runs_counterexample :
    (1 ≤ 1 ∧ List.Perm [0] (List.range 1))
    ∧ fuzzyRuns 1 [0] = 1 ∧ fuzzyEmptyCount 1 [0] = 0
    ∧ ¬ (fuzzyRuns 1 [0] = fuzzyEmptyCount 1 [0]) := by decide

/-! ## Matched pairs (C2) -/

/-- The fuzzy pair inverts block-wise: selecting on `marked_sa` at the
condensed `inv` entry of block `b` gives the SA index whose SA value is
the chosen position of block `b`. -/
theorem fuzzy_block_identity (d n : Nat) (SA ISA : List Nat) (hd : 1 ≤ d)
    (hpermI : List.Perm ISA (List.range n))
    (hinv : ∀ p, p < n → SA.getD (ISA.getD p 0) 0 = p)
    (b : Nat) (hb : b < ceilDiv n d) :
    SA.getD (select1 (fuzzyBuild d ISA).marked_sa
        ((fuzzyBuild d ISA).inv b + 1)) 0
      = select1 (fuzzyBuild d ISA).marked_isa (b + 1) := by
  have hnI : ISA.length = n := perm_length hpermI
  have hbI : b < ceilDiv ISA.length d := by rw [hnI]; exact hb
  have h1 : (fuzzyBuild d ISA).inv b
      = rank1 (fuzzyMarkedSa d ISA) ((fuzzyInvRaw d ISA).getD b 0) := by
    show (fuzzyInvPerm d ISA).getD b 0 = _
    exact fuzzyInvPerm_getD d ISA hbI
  have hblen : b < (fuzzyInvRaw d ISA).length := by
    rw [fuzzyInvRaw_length]
    exact hbI
  have hvmem : (fuzzyInvRaw d ISA).getD b 0 ∈ fuzzyInvRaw d ISA := by
    rw [getD_eq_getElem _ b hblen]
    exact List.getElem_mem hblen
  have hvlt : (fuzzyInvRaw d ISA).getD b 0 < n :=
    fuzzyInvRaw_mem_lt hd hpermI _ hvmem
  have h2 : select1 (fuzzyMarkedSa d ISA)
      (rank1 (fuzzyMarkedSa d ISA) ((fuzzyInvRaw d ISA).getD b 0) + 1)
      = (fuzzyInvRaw d ISA).getD b 0 :=
    select1_rank1 _ _ (by rw [fuzzyMarkedSa_length, hnI]; exact hvlt)
      (fuzzyMarkedSa_getD_mem hd hpermI hvmem)
  show SA.getD (select1 (fuzzyMarkedSa d ISA) ((fuzzyBuild d ISA).inv b + 1)) 0
    = select1 (fuzzyMarkedIsa d ISA) (b + 1)
  rw [h1, h2, fuzzyInvRaw_getD d ISA hbI, fuzzy_select_marked_isa d ISA hd b]
  have hpos : (fuzzyPositions d ISA).getD b 0 < n := by
    have := fuzzyPositions_lt d ISA hd b hbI
    omega
  exact hinv _ hpos

/-- C2 (amended).  With `d_sa = d_isa = d ≥ 1`, SA a permutation of
`[0, n)` and ISA its inverse: the pairs (sa_order, isa_sampling) and
(text_order, text_order_isa_sampling_support) satisfy
`SA[D[k·d]] = k·d` for every `k·d < n`; the fuzzy pair samples one
position per block rather than at stride multiples, and its support,
whose `operator[]` takes a block index and returns a condensed rank,
satisfies block-wise
`SA[select1(marked_sa, D[b]+1)] = select1(marked_isa, b+1)`. -/
theorem matched_pair_identity (d n : Nat) (SA ISA : List Nat) (hd : 1 ≤ d)
    (hpermS : List.Perm SA (List.range n))
    (hpermI : List.Perm ISA (List.range n))
    (hinv : ∀ p, p < n → SA.getD (ISA.getD p 0) 0 = p) :
    (∀ k, k * d < n → SA.getD ((isaBuild d SA).get d (k * d)) 0 = k * d)
    ∧ (∀ k, k * d < n →
        SA.getD ((textOrderIsaBuild (textOrderBuild d SA)).get d (k * d)) 0
          = k * d)
    ∧ (∀ b, b < ceilDiv n d →
        SA.getD (select1 (fuzzyBuild d ISA).marked_sa
            ((fuzzyIsaBuild (fuzzyBuild d ISA)).get b + 1)) 0
          = select1 (fuzzyBuild d ISA).marked_isa (b + 1)) := by
  refine ⟨?_, ?_, ?_⟩
  · intro k hk
    have hkd : k * d / d = k := Nat.mul_div_cancel _ (by omega)
    show SA.getD ((isaBuild d SA).iv.getD (k * d / d) 0) 0 = k * d
    rw [hkd]
    exact (isaBuild_getD d n SA hd hpermS k hk).1
  · intro k hk
    have hkd : k * d / d = k := Nat.mul_div_cancel _ (by omega)
    show SA.getD (select1 (textOrderBuild d SA).marked
        (ipInv (textOrderBuild d SA).samples (k * d / d) + 1)) 0 = k * d
    rw [hkd]
    exact (textOrder_isa_identity d n SA hd hpermS k hk).1
  · intro b hb
    exact fuzzy_block_identity d n SA ISA hd hpermI hinv b hb

/-- C2 as stated fails for the fuzzy pair: its ISA support's
`operator[]` does not divide by the stride and returns a condensed
rank, not an SA index.  With `d = 2`, `SA = ISA = [1,0,3,2,5,4,7,6]`
(an involution) and `k = 1`: `D[k·d] = D[2] = 2` and
`SA[2] = 3 ≠ 2`. -/
theorem matched_pair_fuzzy_counterexample :
    (1 ≤ 2
      ∧ List.Perm [1, 0, 3, 2, 5, 4, 7, 6] (List.range 8)
      ∧ (∀ p, p < 8 →
          ([1, 0, 3, 2, 5, 4, 7, 6] : List Nat).getD
            (([1, 0, 3, 2, 5, 4, 7, 6] : List Nat).getD p 0) 0 = p)
      ∧ 1 * 2 < 8)
    ∧ (fuzzyIsaBuild (fuzzyBuild 2 [1, 0, 3, 2, 5, 4, 7, 6])).get (1 * 2) = 2
    ∧ ¬ (([1, 0, 3, 2, 5, 4, 7, 6] : List Nat).getD
          ((fuzzyIsaBuild (fuzzyBuild 2 [1, 0, 3, 2, 5, 4, 7, 6])).get (1 * 2)) 0
        = 1 * 2) := by decide

/-- Witness for `matched_pair_identity` at `d = 2`,
`SA = ISA = [1,0,3,2,5,4,7,6]`. -/
theorem matched_pair_identity_witness :
    (1 ≤ 2
      ∧ List.Perm [1, 0, 3, 2, 5, 4, 7, 6] (List.range 8)
      ∧ (∀ p, p < 8 →
          ([1, 0, 3, 2, 5, 4, 7, 6] : List Nat).getD
            (([1, 0, 3, 2, 5, 4, 7, 6] : List Nat).getD p 0) 0 = p))
    ∧ ((∀ k, k * 2 < 8 →
        ([1, 0, 3, 2, 5, 4, 7, 6] : List Nat).getD
          ((isaBuild 2 [1, 0, 3, 2, 5, 4, 7, 6]).get 2 (k * 2)) 0 = k * 2)
    ∧ (∀ k, k * 2 < 8 →
        ([1, 0, 3, 2, 5, 4, 7, 6] : List Nat).getD
          ((textOrderIsaBuild (textOrderBuild 2 [1, 0, 3, 2, 5, 4, 7, 6])).get 2
            (k * 2)) 0 = k * 2)
    ∧ (∀ b, b < ceilDiv 8 2 →
        ([1, 0, 3, 2, 5, 4, 7, 6] : List Nat).getD
            (select1 (fuzzyBuild 2 [1, 0, 3, 2, 5, 4, 7, 6]).marked_sa
              ((fuzzyIsaBuild (fuzzyBuild 2 [1, 0, 3, 2, 5, 4, 7, 6])).get b + 1)) 0
          = select1 (fuzzyBuild 2 [1, 0, 3, 2, 5, 4, 7, 6]).marked_isa (b + 1))) :=
  ⟨⟨by decide, by decide, by decide⟩,
    matched_pair_identity 2 8 [1, 0, 3, 2, 5, 4, 7, 6] [1, 0, 3, 2, 5, 4, 7, 6]
      (by decide) (by decide) (by decide) (by decide)⟩

/-! ## ISA neighbour laws (C6): the plain and text-order supports -/

theorem isaBuild_length (d : Nat) (SA : List Nat) :
    (isaBuild d SA).iv.length
      = if 1 ≤ SA.length then (SA.length - 1) / d + 1 else 0 := by
  show ((List.range SA.length).foldl
      (fun iv i =>
        if SA.getD i 0 % d == 0 then iv.set (SA.getD i 0 / d) i else iv)
      (List.replicate
        (if 1 ≤ SA.length then (SA.length - 1) / d + 1 else 0) 0)).length = _
  rw [isaFold_length, List.length_replicate]

theorem isa_sampleLeq_spec (d n : Nat) (SA : List Nat) (hd : 1 ≤ d)
    (hperm : List.Perm SA (List.range n)) (i : Nat) (hi : i < n) :
    ((isaBuild d SA).sampleLeq d i).2 ≤ i
    ∧ ((isaBuild d SA).sampleLeq d i).2 % d = 0
    ∧ SA.getD ((isaBuild d SA).sampleLeq d i).1 0
        = ((isaBuild d SA).sampleLeq d i).2 := by
  have h1 : ((isaBuild d SA).sampleLeq d i).1
      = (isaBuild d SA).iv.getD (i / d) 0 := rfl
  have h2 : ((isaBuild d SA).sampleLeq d i).2 = i / d * d := rfl
  rw [h1, h2]
  have hkd : i / d * d < n := by
    have := Nat.div_mul_le_self i d
    omega
  exact ⟨Nat.div_mul_le_self i d, Nat.mul_mod_left _ _,
    (isaBuild_getD d n SA hd hperm (i / d) hkd).1⟩

theorem isa_sampleQeq_spec (d n : Nat) (SA : List Nat) (hd : 1 ≤ d)
    (hperm : List.Perm SA (List.range n)) (i : Nat) (hi : i < n) :
    (i ≤ ((isaBuild d SA).sampleQeq d i).2
      ∨ i / d + 1 = (isaBuild d SA).iv.length)
    ∧ ((isaBuild d SA).sampleQeq d i).2 % d = 0
    ∧ SA.getD ((isaBuild d SA).sampleQeq d i).1 0
        = ((isaBuild d SA).sampleQeq d i).2 := by
  have hn : SA.length = n := perm_length hperm
  have hlen : (isaBuild d SA).iv.length = (n - 1) / d + 1 := by
    rw [isaBuild_length, if_pos (by omega), hn]
  have h1 : ((isaBuild d SA).sampleQeq d i).1
      = (isaBuild d SA).iv.getD ((i / d + 1) % (isaBuild d SA).iv.length) 0 := rfl
  have h2 : ((isaBuild d SA).sampleQeq d i).2
      = (i / d + 1) % (isaBuild d SA).iv.length * d := rfl
  rw [h1, h2]
  have hpos : 0 < (isaBuild d SA).iv.length := by
    rw [hlen]
    exact Nat.succ_pos _
  have hci_lt : (i / d + 1) % (isaBuild d SA).iv.length
      < (isaBuild d SA).iv.length :=
    Nat.mod_lt _ hpos
  have hcid : (i / d + 1) % (isaBuild d SA).iv.length * d < n := by
    have hle : (i / d + 1) % (isaBuild d SA).iv.length ≤ (n - 1) / d := by
      omega
    have := (Nat.le_div_iff_mul_le (show 0 < d by omega)).mp hle
    omega
  refine ⟨?_, Nat.mul_mod_left _ _,
    (isaBuild_getD d n SA hd hperm _ hcid).1⟩
  by_cases hw : i / d + 1 = (isaBuild d SA).iv.length
  · exact Or.inr hw
  · left
    have hdiv : i / d ≤ (n - 1) / d := Nat.div_le_div_right (by omega)
    have hlt : i / d + 1 < (isaBuild d SA).iv.length := by
      rw [hlen]
      omega
    rw [Nat.mod_eq_of_lt hlt]
    have hmod := Nat.div_add_mod i d
    have hmlt : i % d < d := Nat.mod_lt i (by omega)
    have hexp : (i / d + 1) * d = d * (i / d) + d := by ring
    omega

theorem textOrder_sampleLeq_spec (d n : Nat) (SA : List Nat) (hd : 1 ≤ d)
    (hperm : List.Perm SA (List.range n)) (i : Nat) (hi : i < n) :
    ((textOrderIsaBuild (textOrderBuild d SA)).sampleLeq d i).2 ≤ i
    ∧ ((textOrderIsaBuild (textOrderBuild d SA)).sampleLeq d i).2 % d = 0
    ∧ SA.getD ((textOrderIsaBuild (textOrderBuild d SA)).sampleLeq d i).1 0
        = ((textOrderIsaBuild (textOrderBuild d SA)).sampleLeq d i).2 := by
  have h1 : ((textOrderIsaBuild (textOrderBuild d SA)).sampleLeq d i).1
      = select1 (textOrderBuild d SA).marked
          (ipInv (textOrderBuild d SA).samples (i / d) + 1) := rfl
  have h2 : ((textOrderIsaBuild (textOrderBuild d SA)).sampleLeq d i).2
      = i / d * d := rfl
  rw [h1, h2]
  have hkd : i / d * d < n := by
    have := Nat.div_mul_le_self i d
    omega
  exact ⟨Nat.div_mul_le_self i d, Nat.mul_mod_left _ _,
    (textOrder_isa_identity d n SA hd hperm (i / d) hkd).1⟩

theorem textOrder_sampleQeq_spec (d n : Nat) (SA : List Nat) (hd : 1 ≤ d)
    (hn1 : 1 ≤ n) (hperm : List.Perm SA (List.range n)) (i : Nat) (hi : i < n) :
    (i ≤ ((textOrderIsaBuild (textOrderBuild d SA)).sampleQeq d i).2
      ∨ i / d + 1 = (textOrderIsaBuild (textOrderBuild d SA)).perm.length)
    ∧ ((textOrderIsaBuild (textOrderBuild d SA)).sampleQeq d i).2 % d = 0
    ∧ SA.getD ((textOrderIsaBuild (textOrderBuild d SA)).sampleQeq d i).1 0
        = ((textOrderIsaBuild (textOrderBuild d SA)).sampleQeq d i).2 := by
  have hplen : (textOrderIsaBuild (textOrderBuild d SA)).perm.length
      = (n - 1) / d + 1 := by
    show (textOrderBuild d SA).samples.length = _
    rw [textOrderBuild_samples hd hperm, textOrderRaw_length hd hperm,
      ceilDiv_eq_pred_div_succ hd hn1]
  have h1 : ((textOrderIsaBuild (textOrderBuild d SA)).sampleQeq d i).1
      = select1 (textOrderBuild d SA).marked
          (ipInv (textOrderBuild d SA).samples
            ((i / d + 1) % (textOrderIsaBuild (textOrderBuild d SA)).perm.length)
            + 1) := rfl
  have h2 : ((textOrderIsaBuild (textOrderBuild d SA)).sampleQeq d i).2
      = (i / d + 1) % (textOrderIsaBuild (textOrderBuild d SA)).perm.length * d :=
    rfl
  rw [h1, h2]
  have hpos : 0 < (textOrderIsaBuild (textOrderBuild d SA)).perm.length := by
    rw [hplen]
    exact Nat.succ_pos _
  have hci_lt : (i / d + 1) % (textOrderIsaBuild (textOrderBuild d SA)).perm.length
      < (textOrderIsaBuild (textOrderBuild d SA)).perm.length :=
    Nat.mod_lt _ hpos
  have hcid : (i / d + 1) % (textOrderIsaBuild (textOrderBuild d SA)).perm.length * d
      < n := by
    have hle : (i / d + 1) % (textOrderIsaBuild (textOrderBuild d SA)).perm.length
        ≤ (n - 1) / d := by
      omega
    have := (Nat.le_div_iff_mul_le (show 0 < d by omega)).mp hle
    omega
  refine ⟨?_, Nat.mul_mod_left _ _,
    (textOrder_isa_identity d n SA hd hperm _ hcid).1⟩
  by_cases hw : i / d + 1 = (textOrderIsaBuild (textOrderBuild d SA)).perm.length
  · exact Or.inr hw
  · left
    have hdiv : i / d ≤ (n - 1) / d := Nat.div_le_div_right (by omega)
    have hlt : i / d + 1 < (textOrderIsaBuild (textOrderBuild d SA)).perm.length := by
      rw [hplen]
      omega
    rw [Nat.mod_eq_of_lt hlt]
    have hmod := Nat.div_add_mod i d
    have hmlt : i % d < d := Nat.mod_lt i (by omega)
    have hexp : (i / d + 1) * d = d * (i / d) + d := by ring
    omega

/-! ## ISA neighbour laws (C6): the fuzzy support -/

theorem fuzzyIsaBuild_sa (X : FuzzySampling) : (fuzzyIsaBuild X).sa = X := rfl

theorem fuzzySampleLeq_eq (D : FuzzyIsaSupport) (d i : Nat) :
    D.sampleLeq d i
      = if i < select1 D.sa.marked_isa (i / d + 1) then
          (select1 D.sa.marked_sa
            (D.sa.inv (if 0 < i / d then i / d - 1 else D.sa.size - 1) + 1),
           select1 D.sa.marked_isa
            ((if 0 < i / d then i / d - 1 else D.sa.size - 1) + 1))
        else
          (select1 D.sa.marked_sa (D.sa.inv (i / d) + 1),
           select1 D.sa.marked_isa (i / d + 1)) := rfl

theorem fuzzySampleQeq_eq (D : FuzzyIsaSupport) (d i : Nat) :
    D.sampleQeq d i
      = if select1 D.sa.marked_isa (i / d + 1) < i then
          (select1 D.sa.marked_sa
            (D.sa.inv (if i / d < D.sa.size - 1 then i / d + 1 else 0) + 1),
           select1 D.sa.marked_isa
            ((if i / d < D.sa.size - 1 then i / d + 1 else 0) + 1))
        else
          (select1 D.sa.marked_sa (D.sa.inv (i / d) + 1),
           select1 D.sa.marked_isa (i / d + 1)) := rfl

theorem fuzzyBuild_size (d n : Nat) (ISA : List Nat)
    (hperm : List.Perm ISA (List.range n)) :
    (fuzzyBuild d ISA).size = ceilDiv n d := by
  show (fuzzyInvPerm d ISA).length = _
  rw [fuzzyInvPerm_length, perm_length hperm]

/-- Both answers of the fuzzy support's neighbour queries describe the
chosen position of a block `b`: `SA` at the first component is the
second component. -/
theorem fuzzy_sample_components (d n : Nat) (SA ISA : List Nat) (hd : 1 ≤ d)
    (hpermI : List.Perm ISA (List.range n))
    (hinv : ∀ p, p < n → SA.getD (ISA.getD p 0) 0 = p)
    (b : Nat) (hb : b < ceilDiv n d) :
    SA.getD (select1 (fuzzyBuild d ISA).marked_sa
        ((fuzzyBuild d ISA).inv b + 1)) 0
      = select1 (fuzzyBuild d ISA).marked_isa (b + 1) :=
  fuzzy_block_identity d n SA ISA hd hpermI hinv b hb

theorem fuzzy_sampleLeq_spec (d n : Nat) (SA ISA : List Nat) (hd : 1 ≤ d)
    (hpermI : List.Perm ISA (List.range n))
    (hinv : ∀ p, p < n → SA.getD (ISA.getD p 0) 0 = p)
    (i : Nat) (hi : i < n) :
    SA.getD ((fuzzyIsaBuild (fuzzyBuild d ISA)).sampleLeq d i).1 0
      = ((fuzzyIsaBuild (fuzzyBuild d ISA)).sampleLeq d i).2
    ∧ (((fuzzyIsaBuild (fuzzyBuild d ISA)).sampleLeq d i).2 ≤ i
        ∨ (i / d = 0
          ∧ ((fuzzyIsaBuild (fuzzyBuild d ISA)).sampleLeq d i).2
              = select1 (fuzzyBuild d ISA).marked_isa (ceilDiv n d))) := by
  have hnI : ISA.length = n := perm_length hpermI
  have hB := ceilDiv_eq_pred_div_succ hd (show 1 ≤ n by omega)
  have hB1 : 1 ≤ ceilDiv n d := by
    rw [hB]
    exact Nat.succ_pos _
  have hsize := fuzzyBuild_size d n ISA hpermI
  have hsel : ∀ b, select1 (fuzzyBuild d ISA).marked_isa (b + 1)
      = (fuzzyPositions d ISA).getD b 0 := fun b =>
    fuzzy_select_marked_isa d ISA hd b
  have hci : i / d < ceilDiv n d := by
    have h1 : i / d ≤ (n - 1) / d := Nat.div_le_div_right (by omega)
    omega
  rw [fuzzySampleLeq_eq, fuzzyIsaBuild_sa]
  by_cases hij : i < select1 (fuzzyBuild d ISA).marked_isa (i / d + 1)
  · rw [if_pos hij]
    by_cases hci0 : 0 < i / d
    · rw [if_pos hci0]
      have hb2 : i / d - 1 < ceilDiv n d := by omega
      refine ⟨by rw [fuzzy_sample_components d n SA ISA hd hpermI hinv _ hb2], ?_⟩
      left
      rw [hsel]
      have hmem := fuzzyPositions_getD_mem d ISA hd (i / d - 1) (by rw [hnI]; exact hb2)
      have hminle : min d (ISA.length - (i / d - 1) * d) ≤ d := Nat.min_le_left _ _
      have he1 : (i / d - 1) * d + d = ((i / d - 1) + 1) * d := by ring
      have he2 : (i / d - 1) + 1 = i / d := by omega
      have he3 : i / d * d ≤ i := Nat.div_mul_le_self i d
      rw [he2] at he1
      omega
    · rw [if_neg hci0]
      have hci0eq : i / d = 0 := Nat.eq_zero_of_not_pos hci0
      have hb2 : (fuzzyBuild d ISA).size - 1 < ceilDiv n d := by omega
      refine ⟨by rw [fuzzy_sample_components d n SA ISA hd hpermI hinv _ hb2], ?_⟩
      right
      refine ⟨hci0eq, ?_⟩
      show select1 (fuzzyBuild d ISA).marked_isa (((fuzzyBuild d ISA).size - 1) + 1)
        = select1 (fuzzyBuild d ISA).marked_isa (ceilDiv n d)
      rw [hsize]
      congr 1
      omega
  · rw [if_neg hij]
    refine ⟨by rw [fuzzy_sample_components d n SA ISA hd hpermI hinv _ hci], ?_⟩
    left
    omega

theorem fuzzy_sampleQeq_spec (d n : Nat) (SA ISA : List Nat) (hd : 1 ≤ d)
    (hpermI : List.Perm ISA (List.range n))
    (hinv : ∀ p, p < n → SA.getD (ISA.getD p 0) 0 = p)
    (i : Nat) (hi : i < n) :
    SA.getD ((fuzzyIsaBuild (fuzzyBuild d ISA)).sampleQeq d i).1 0
      = ((fuzzyIsaBuild (fuzzyBuild d ISA)).sampleQeq d i).2
    ∧ (i ≤ ((fuzzyIsaBuild (fuzzyBuild d ISA)).sampleQeq d i).2
        ∨ (i / d = ceilDiv n d - 1
          ∧ ((fuzzyIsaBuild (fuzzyBuild d ISA)).sampleQeq d i).2
              = select1 (fuzzyBuild d ISA).marked_isa 1)) := by
  have hnI : ISA.length = n := perm_length hpermI
  have hB := ceilDiv_eq_pred_div_succ hd (show 1 ≤ n by omega)
  have hB1 : 1 ≤ ceilDiv n d := by
    rw [hB]
    exact Nat.succ_pos _
  have hsize := fuzzyBuild_size d n ISA hpermI
  have hsel : ∀ b, select1 (fuzzyBuild d ISA).marked_isa (b + 1)
      = (fuzzyPositions d ISA).getD b 0 := fun b =>
    fuzzy_select_marked_isa d ISA hd b
  have hci : i / d < ceilDiv n d := by
    have h1 : i / d ≤ (n - 1) / d := Nat.div_le_div_right (by omega)
    omega
  rw [fuzzySampleQeq_eq, fuzzyIsaBuild_sa]
  by_cases hij : select1 (fuzzyBuild d ISA).marked_isa (i / d + 1) < i
  · rw [if_pos hij]
    by_cases hciB : i / d < (fuzzyBuild d ISA).size - 1
    · rw [if_pos hciB]
      have hb2 : i / d + 1 < ceilDiv n d := by omega
      refine ⟨by rw [fuzzy_sample_components d n SA ISA hd hpermI hinv _ hb2], ?_⟩
      left
      rw [hsel]
      have hmem := fuzzyPositions_getD_mem d ISA hd (i / d + 1) (by rw [hnI]; exact hb2)
      have hmod := Nat.div_add_mod i d
      have hmlt : i % d < d := Nat.mod_lt i (by omega)
      have he1 : (i / d + 1) * d = d * (i / d) + d := by ring
      omega
    · rw [if_neg hciB]
      have hb2 : (0 : Nat) < ceilDiv n d := hB1
      refine ⟨by rw [fuzzy_sample_components d n SA ISA hd hpermI hinv _ hb2], ?_⟩
      right
      exact ⟨by omega, rfl⟩
  · rw [if_neg hij]
    refine ⟨by rw [fuzzy_sample_components d n SA ISA hd hpermI hinv _ hci], ?_⟩
    left
    omega

/-- C6.  For each ISA support built with `d_sa = d_isa = d ≥ 1` from SA
(a permutation of `[0, n)`, ISA its inverse): `sample_leq(i)` returns
`(v, p)` with `p ≤ i`, `p` a multiple of `d` (for the fuzzy support `p`
may instead be the wrap-around sentinel — the last block's chosen
position — and need not be a multiple), and `SA[v] = p`; symmetrically
`sample_qeq(i)` returns `(v, p)` with `p ≥ i` or the wrap-around value
and `SA[v] = p`. -/
theorem isa_neighbour_laws (d n : Nat) (SA ISA : List Nat) (hd : 1 ≤ d)
    (hpermS : List.Perm SA (List.range n))
    (hpermI : List.Perm ISA (List.range n))
    (hinv : ∀ p, p < n → SA.getD (ISA.getD p 0) 0 = p) :
    (∀ i, i < n →
      ((isaBuild d SA).sampleLeq d i).2 ≤ i
      ∧ ((isaBuild d SA).sampleLeq d i).2 % d = 0
      ∧ SA.getD ((isaBuild d SA).sampleLeq d i).1 0
          = ((isaBuild d SA).sampleLeq d i).2)
    ∧ (∀ i, i < n →
      (i ≤ ((isaBuild d SA).sampleQeq d i).2
        ∨ i / d + 1 = (isaBuild d SA).iv.length)
      ∧ ((isaBuild d SA).sampleQeq d i).2 % d = 0
      ∧ SA.getD ((isaBuild d SA).sampleQeq d i).1 0
          = ((isaBuild d SA).sampleQeq d i).2)
    ∧ (∀ i, i < n →
      ((textOrderIsaBuild (textOrderBuild d SA)).sampleLeq d i).2 ≤ i
      ∧ ((textOrderIsaBuild (textOrderBuild d SA)).sampleLeq d i).2 % d = 0
      ∧ SA.getD ((textOrderIsaBuild (textOrderBuild d SA)).sampleLeq d i).1 0
          = ((textOrderIsaBuild (textOrderBuild d SA)).sampleLeq d i).2)
    ∧ (∀ i, i < n →
      (i ≤ ((textOrderIsaBuild (textOrderBuild d SA)).sampleQeq d i).2
        ∨ i / d + 1 = (textOrderIsaBuild (textOrderBuild d SA)).perm.length)
      ∧ ((textOrderIsaBuild (textOrderBuild d SA)).sampleQeq d i).2 % d = 0
      ∧ SA.getD ((textOrderIsaBuild (textOrderBuild d SA)).sampleQeq d i).1 0
          = ((textOrderIsaBuild (textOrderBuild d SA)).sampleQeq d i).2)
    ∧ (∀ i, i < n →
      SA.getD ((fuzzyIsaBuild (fuzzyBuild d ISA)).sampleLeq d i).1 0
        = ((fuzzyIsaBuild (fuzzyBuild d ISA)).sampleLeq d i).2
      ∧ (((fuzzyIsaBuild (fuzzyBuild d ISA)).sampleLeq d i).2 ≤ i
          ∨ (i / d = 0
            ∧ ((fuzzyIsaBuild (fuzzyBuild d ISA)).sampleLeq d i).2
                = select1 (fuzzyBuild d ISA).marked_isa (ceilDiv n d))))
    ∧ (∀ i, i < n →
      SA.getD ((fuzzyIsaBuild (fuzzyBuild d ISA)).sampleQeq d i).1 0
        = ((fuzzyIsaBuild (fuzzyBuild d ISA)).sampleQeq d i).2
      ∧ (i ≤ ((fuzzyIsaBuild (fuzzyBuild d ISA)).sampleQeq d i).2
          ∨ (i / d = ceilDiv n d - 1
            ∧ ((fuzzyIsaBuild (fuzzyBuild d ISA)).sampleQeq d i).2
                = select1 (fuzzyBuild d ISA).marked_isa 1))) :=
  ⟨fun i hi => isa_sampleLeq_spec d n SA hd hpermS i hi,
   fun i hi => isa_sampleQeq_spec d n SA hd hpermS i hi,
   fun i hi => textOrder_sampleLeq_spec d n SA hd hpermS i hi,
   fun i hi => textOrder_sampleQeq_spec d n SA hd (by omega) hpermS i hi,
   fun i hi => fuzzy_sampleLeq_spec d n SA ISA hd hpermI hinv i hi,
   fun i hi => fuzzy_sampleQeq_spec d n SA ISA hd hpermI hinv i hi⟩

/-- Witness for `isa_neighbour_laws` at `d = 2`,
`SA = ISA = [1,0,3,2,5,4,7,6]`. -/
theorem isa_neighbour_laws_witness :
    (1 ≤ 2
      ∧ List.Perm [1, 0, 3, 2, 5, 4, 7, 6] (List.range 8)
      ∧ (∀ p, p < 8 →
          ([1, 0, 3, 2, 5, 4, 7, 6] : List Nat).getD
            (([1, 0, 3, 2, 5, 4, 7, 6] : List Nat).getD p 0) 0 = p))
    ∧ ((∀ i, i < 8 →
      ((isaBuild 2 [1, 0, 3, 2, 5, 4, 7, 6]).sampleLeq 2 i).2 ≤ i
      ∧ ((isaBuild 2 [1, 0, 3, 2, 5, 4, 7, 6]).sampleLeq 2 i).2 % 2 = 0
      ∧ ([1, 0, 3, 2, 5, 4, 7, 6] : List Nat).getD
          ((isaBuild 2 [1, 0, 3, 2, 5, 4, 7, 6]).sampleLeq 2 i).1 0
          = ((isaBuild 2 [1, 0, 3, 2, 5, 4, 7, 6]).sampleLeq 2 i).2)
    ∧ (∀ i, i < 8 →
      (i ≤ ((isaBuild 2 [1, 0, 3, 2, 5, 4, 7, 6]).sampleQeq 2 i).2
        ∨ i / 2 + 1 = (isaBuild 2 [1, 0, 3, 2, 5, 4, 7, 6]).iv.length)
      ∧ ((isaBuild 2 [1, 0, 3, 2, 5, 4, 7, 6]).sampleQeq 2 i).2 % 2 = 0
      ∧ ([1, 0, 3, 2, 5, 4, 7, 6] : List Nat).getD
          ((isaBuild 2 [1, 0, 3, 2, 5, 4, 7, 6]).sampleQeq 2 i).1 0
          = ((isaBuild 2 [1, 0, 3, 2, 5, 4, 7, 6]).sampleQeq 2 i).2)
    ∧ (∀ i, i < 8 →
      ((textOrderIsaBuild (textOrderBuild 2 [1, 0, 3, 2, 5, 4, 7, 6])).sampleLeq 2 i).2 ≤ i
      ∧ ((textOrderIsaBuild (textOrderBuild 2 [1, 0, 3, 2, 5, 4, 7, 6])).sampleLeq 2 i).2 % 2 = 0
      ∧ ([1, 0, 3, 2, 5, 4, 7, 6] : List Nat).getD
          ((textOrderIsaBuild (textOrderBuild 2 [1, 0, 3, 2, 5, 4, 7, 6])).sampleLeq 2 i).1 0
          = ((textOrderIsaBuild (textOrderBuild 2 [1, 0, 3, 2, 5, 4, 7, 6])).sampleLeq 2 i).2)
    ∧ (∀ i, i < 8 →
      (i ≤ ((textOrderIsaBuild (textOrderBuild 2 [1, 0, 3, 2, 5, 4, 7, 6])).sampleQeq 2 i).2
        ∨ i / 2 + 1 = (textOrderIsaBuild (textOrderBuild 2 [1, 0, 3, 2, 5, 4, 7, 6])).perm.length)
      ∧ ((textOrderIsaBuild (textOrderBuild 2 [1, 0, 3, 2, 5, 4, 7, 6])).sampleQeq 2 i).2 % 2 = 0
      ∧ ([1, 0, 3, 2, 5, 4, 7, 6] : List Nat).getD
          ((textOrderIsaBuild (textOrderBuild 2 [1, 0, 3, 2, 5, 4, 7, 6])).sampleQeq 2 i).1 0
          = ((textOrderIsaBuild (textOrderBuild 2 [1, 0, 3, 2, 5, 4, 7, 6])).sampleQeq 2 i).2)
    ∧ (∀ i, i < 8 →
      ([1, 0, 3, 2, 5, 4, 7, 6] : List Nat).getD
          ((fuzzyIsaBuild (fuzzyBuild 2 [1, 0, 3, 2, 5, 4, 7, 6])).sampleLeq 2 i).1 0
        = ((fuzzyIsaBuild (fuzzyBuild 2 [1, 0, 3, 2, 5, 4, 7, 6])).sampleLeq 2 i).2
      ∧ (((fuzzyIsaBuild (fuzzyBuild 2 [1, 0, 3, 2, 5, 4, 7, 6])).sampleLeq 2 i).2 ≤ i
          ∨ (i / 2 = 0
            ∧ ((fuzzyIsaBuild (fuzzyBuild 2 [1, 0, 3, 2, 5, 4, 7, 6])).sampleLeq 2 i).2
                = select1 (fuzzyBuild 2 [1, 0, 3, 2, 5, 4, 7, 6]).marked_isa (ceilDiv 8 2))))
    ∧ (∀ i, i < 8 →
      ([1, 0, 3, 2, 5, 4, 7, 6] : List Nat).getD
          ((fuzzyIsaBuild (fuzzyBuild 2 [1, 0, 3, 2, 5, 4, 7, 6])).sampleQeq 2 i).1 0
        = ((fuzzyIsaBuild (fuzzyBuild 2 [1, 0, 3, 2, 5, 4, 7, 6])).sampleQeq 2 i).2
      ∧ (i ≤ ((fuzzyIsaBuild (fuzzyBuild 2 [1, 0, 3, 2, 5, 4, 7, 6])).sampleQeq 2 i).2
          ∨ (i / 2 = ceilDiv 8 2 - 1
            ∧ ((fuzzyIsaBuild (fuzzyBuild 2 [1, 0, 3, 2, 5, 4, 7, 6])).sampleQeq 2 i).2
                = select1 (fuzzyBuild 2 [1, 0, 3, 2, 5, 4, 7, 6]).marked_isa 1)))) :=
  ⟨⟨by decide, by decide, by decide⟩,
    isa_neighbour_laws 2 8 [1, 0, 3, 2, 5, 4, 7, 6] [1, 0, 3, 2, 5, 4, 7, 6]
      (by decide) (by decide) (by decide) (by decide)⟩

end SDSL
